import Mathlib

/-!
Verification of the qplanarity core (`main.py`): the random planar graph
generator `RandomGraph2` and the incremental crossing tracker implemented by
`Scene.init` / `Scene.updateNode` / `Scene.checkVictory`.

The geometric segment-intersection primitive (Qt's `collidingItems` with
`Qt.IntersectsItemShape`) is an external capability; it is modelled as an
abstract parameter `sc : SegCross` applied to the current endpoint positions.
Python's ambient random source is modelled, as the spec prescribes, as an
injected stream of draws (`List Draw`); loops that in Python terminate only
probabilistically are given explicit fuel.
-/

namespace QPlanarity

abbrev Vertex := Nat
abbrev Edge := Nat × Nat
abbrev Point := Int × Int
abbrev SegCross := Point → Point → Point → Point → Bool

/-- Code line 181 / 224: `len(set(l.ab + ab)) < 4`, i.e. the four endpoint
indices of the two edges have fewer than four distinct values. -/
def connectedEdges (e f : Edge) : Bool :=
  ({e.1, e.2, f.1, f.2} : Finset Vertex).card < 4

/-- One collision test between edges `e` and `f` at the current positions:
the external shape-intersection primitive, with connected edges exempt
(lines 179-184 and 219-227 of `main.py`). -/
def collides (sc : SegCross) (pos : Vertex → Point) (e f : Edge) : Bool :=
  !connectedEdges e f && sc (pos e.1) (pos e.2) (pos f.1) (pos f.2)

/-- The collision dict `self.collisions : Edge -> set[Edge]` is modelled as the
set of its (key, member) pairs; `keys` recovers the dict's key set. -/
def keys (m : Finset (Edge × Edge)) : Finset Edge := m.image Prod.fst

/-- The value set stored under key `ab` (empty when `ab` is not a key). -/
def row (m : Finset (Edge × Edge)) (ab : Edge) : Finset Edge :=
  (m.filter (fun p => p.1 = ab)).image Prod.snd

/-- The brute-force all-pairs collision map over an edge set at given
positions: `(e, f)` is recorded iff both edges are present and collide. -/
def bruteMap (sc : SegCross) (pos : Vertex → Point) (E : Finset Edge) :
    Finset (Edge × Edge) :=
  (E ×ˢ E).filter (fun p => collides sc pos p.1 p.2)

/-- State of `Scene` as far as the crossing tracker is concerned:
vertex count, edge set (= keys of `self.lines`), the `node2lines` adjacency
lists, vertex positions, the collision map and the untangled set. -/
structure Tracker where
  n : Nat
  edges : Finset Edge
  n2l : List (List Edge)
  pos : Vertex → Point
  coll : Finset (Edge × Edge)
  untangled : Finset Edge

/-- One iteration of the `for ab in edges` loop of `Scene.init`
(lines 174-184): the accumulator holds the lines already added and the
collision pairs recorded so far; the new line is tested against the lines
already present and every hit is recorded in both directions. -/
def initStep (sc : SegCross) (pos : Vertex → Point)
    (acc : Finset Edge × Finset (Edge × Edge)) (ab : Edge) :
    Finset Edge × Finset (Edge × Edge) :=
  let hits := acc.1.filter (fun xy => collides sc pos ab xy)
  (insert ab acc.1,
    (acc.2 ∪ hits.image (fun x => (ab, x))) ∪ hits.image (fun x => (x, ab)))

/-- The collision map built by `Scene.init` on the given edge enumeration. -/
def initCollisions (sc : SegCross) (pos : Vertex → Point)
    (edgeList : List Edge) : Finset (Edge × Edge) :=
  (edgeList.foldl (initStep sc pos) (∅, ∅)).2

/-- `getEdges` lines 113-117: `n2e[a].append((a,b)); n2e[b].append((a,b))`
for each edge, over lists indexed by the vertices `0..n-1`. -/
def buildN2l (n : Nat) (edgeList : List Edge) : List (List Edge) :=
  (List.range n).map (fun v =>
    edgeList.flatMap (fun e =>
      (if e.1 = v then [e] else []) ++ (if e.2 = v then [e] else [])))

/-- `Scene.init` (lines 154-197): place the vertices, add the lines while
recording pairwise collisions, and derive `untangled = edges - keys`. -/
def initTracker (sc : SegCross) (n : Nat) (edgeList : List Edge)
    (pos0 : Vertex → Point) : Tracker :=
  { n := n
    edges := edgeList.toFinset
    n2l := buildN2l n edgeList
    pos := pos0
    coll := initCollisions sc pos0 edgeList
    untangled := edgeList.toFinset \ keys (initCollisions sc pos0 edgeList) }

/-- The set `coll` recomputed for line `ab` in `Scene.updateNode`
(lines 218-227): all other edges currently colliding with `ab`. -/
def currColl (sc : SegCross) (st : Tracker) (ab : Edge) : Finset Edge :=
  st.edges.filter (fun xy => collides sc st.pos ab xy)

/-- The collision map after the removal loop of `Scene.updateNode`
(lines 232-243): every stale partner `xy` of `ab` loses `ab` from its set. -/
def removalMap (m : Finset (Edge × Edge)) (ab : Edge) (C : Finset Edge) :
    Finset (Edge × Edge) :=
  m \ ((row m ab \ C).image (fun xy => (xy, ab)))

/-- The body of the `for ab in self.node2lines[node.idx]` loop of
`Scene.updateNode` (lines 215-257) for a single edge `ab`. -/
def updateEdgeStep (sc : SegCross) (st : Tracker) (ab : Edge) : Tracker :=
  let C := currColl sc st ab
  let m1 := removalMap st.coll ab C
  let unt1 := st.untangled ∪ (row st.coll ab \ C).filter (fun xy => row m1 xy = ∅)
  if C.Nonempty then
    { st with
      coll := (m1.filter (fun p => p.1 ≠ ab) ∪ C.image (fun x => (ab, x))) ∪
        C.image (fun x => (x, ab))
      untangled := (unt1.erase ab) \ C.filter (fun xy => row m1 xy = ∅) }
  else if ab ∈ keys m1 then
    { st with
      coll := m1.filter (fun p => p.1 ≠ ab)
      untangled := insert ab unt1 }
  else
    { st with coll := m1, untangled := unt1 }

/-- Python list indexing: `l[i]` for an `int` index, with negative indices
counting from the end and out-of-range access raising (returning `none`). -/
def pyGet {α : Type} (l : List α) (i : Int) : Option α :=
  if 0 ≤ i then l[i.toNat]?
  else if 0 ≤ i + l.length then l[(i + l.length).toNat]? else none

/-- A vertex drag: `Node.mouseMoveEvent` sets the dragged node's position and
calls `Scene.updateNode`, which walks `node2lines[node.idx]` and finally emits
`(len(self.untangled), len(self.lines))` (lines 138-140 and 213-259).
A tracked vertex (`0 ≤ idx < n`) has its position updated; the lookup
`self.node2lines[node.idx]` follows Python list-index semantics, so an index
in `[-n, 0)` aliases to `n + idx` (moving an untracked node object) and an
index outside `[-n, n)` raises `IndexError`, before any tracker mutation. -/
def updateVertex (sc : SegCross) (st : Tracker) (idx : Int) (p : Point) :
    Except Unit (Tracker × Nat × Nat) :=
  match pyGet st.n2l idx with
  | none => .error ()
  | some l =>
    let st0 := if 0 ≤ idx ∧ idx < (st.n : Int) then
        { st with pos := Function.update st.pos idx.toNat p } else st
    let st1 := l.foldl (updateEdgeStep sc) st0
    .ok (st1, st1.untangled.card, st1.edges.card)

/-- A whole drag session: a sequence of `updateVertex` calls.  A call that
raises leaves the tracker untouched (the Qt event loop carries on). -/
def applyUpdates (sc : SegCross) (st : Tracker) :
    List (Int × Point) → Tracker
  | [] => st
  | (i, p) :: rest =>
    match updateVertex sc st i p with
    | .error _ => applyUpdates sc st rest
    | .ok r => applyUpdates sc r.1 rest

/-- `Scene.checkVictory` (lines 270-276): reports victory iff the collision
dict is empty; the tracker state is returned unchanged. -/
def checkVictory (st : Tracker) : Tracker × Bool :=
  if (keys st.coll).card ≠ 0 then (st, false) else (st, true)

/-- The external segment-crossing primitive is symmetric in the two
segments (shape intersection is); theorems that need this assume it. -/
def SymmCross (sc : SegCross) : Prop :=
  ∀ p1 p2 p3 p4, sc p1 p2 p3 p4 = sc p3 p4 p1 p2

/-- A well-formed edge enumeration handed to `Scene.init`: it enumerates a
set (no duplicates), edges are proper (`a ≠ b`) and endpoints index existing
node objects. -/
def GoodEdges (n : Nat) (l : List Edge) : Prop :=
  l.Nodup ∧ (∀ e ∈ l, e.1 ≠ e.2) ∧ (∀ e ∈ l, e.1 < n ∧ e.2 < n)

/-- Two edges share an endpoint. -/
def SharesEndpoint (e f : Edge) : Prop :=
  e.1 = f.1 ∨ e.1 = f.2 ∨ e.2 = f.1 ∨ e.2 = f.2

/-- The tracker's central invariant: the collision map is exactly the
brute-force map at the current positions, and `untangled` is its complement
inside the edge set. -/
def TrackerInv (sc : SegCross) (st : Tracker) : Prop :=
  st.coll = bruteMap sc st.pos st.edges ∧
  st.untangled = st.edges \ keys st.coll

/-! ## The random planar graph generator (`RandomGraph2`) -/

/-- One primitive consumed from the injected random source:
`edge e` for `rnd.choice(tuple(outside_edges))`, `side b` for
`rnd.choice(ab)`, `coin b` for one `rnd.random()` comparison, and
`scanPick r` for the outcome of the `for xy in self.outside_edges` scan in
`removeLines` (`none` = the scan reached an edge equal to `endpoints`). -/
inductive Draw where
  | edge (e : Edge)
  | side (b : Bool)
  | coin (b : Bool)
  | scanPick (r : Option Edge)
deriving DecidableEq

/-- The generator's state: the boundary edge set, the permanent edge set,
the next unused vertex index and the node limit. -/
structure GenState where
  outside : Finset Edge
  edges : Finset Edge
  nodeIdx : Nat
  limit : Nat
deriving DecidableEq

/-- The fan loop of `RandomGraph2.addLines` (lines 72-81): move `ab` into the
permanent set, attach a fresh vertex to `base` and `pivot`, and continue the
fan from the new edge unless the stop coin or the node limit says otherwise. -/
def fanLoop : Nat → GenState → Nat → Nat → Edge → List Draw →
    Option (GenState × List Draw)
  | 0, _, _, _, _, _ => none
  | fuel + 1, st, base, pivot, ab, draws =>
    let st1 : GenState :=
      { st with
        outside := insert (pivot, st.nodeIdx)
          (insert (base, st.nodeIdx) (st.outside.erase ab))
        edges := insert ab st.edges
        nodeIdx := st.nodeIdx + 1 }
    match draws with
    | .coin b :: rest =>
      if b ∨ st.limit ≤ st1.nodeIdx then some (st1, rest)
      else fanLoop fuel st1 st.nodeIdx pivot (pivot, st.nodeIdx) rest
    | _ => none

/-- `RandomGraph2.addLines` (lines 60-81): choose a boundary edge and a pivot
endpoint; `cnt * rnd.random() > 2.0` (a soft degree cap, satisfiable only when
`cnt > 2` since `rnd.random() < 1`) retries the whole step; otherwise run the
fan. -/
def addLines : Nat → GenState → List Draw → Option (GenState × List Draw)
  | 0, _, _ => none
  | fuel + 1, st, .edge ab :: .side s :: .coin r :: rest =>
    if ab ∈ st.outside then
      let pivot := if s then ab.1 else ab.2
      let base := ab.1 + ab.2 - pivot
      let cnt := (st.edges.filter (fun xy => xy.1 = pivot ∨ xy.2 = pivot)).card
      if 2 < cnt ∧ r then addLines fuel st rest
      else fanLoop (fuel + 1) st base pivot ab rest
    else none
  | _ + 1, _, _ => none

mutual

/-- `RandomGraph2.removeLines` (lines 82-111): move a random boundary edge
into the permanent set and walk the boundary from its endpoints. -/
def removeLines : Nat → GenState → List Draw → Option (GenState × List Draw)
  | 0, _, _ => none
  | fuel + 1, st, .edge ab :: rest =>
    if ab ∈ st.outside then
      walkLoop fuel
        { st with outside := st.outside.erase ab, edges := insert ab st.edges }
        ab rest
    else none
  | _ + 1, _, _ => none

/-- The `while True` walk of `removeLines` (lines 89-111).  The scan outcome
is an injected draw: `none` models the scan reaching a boundary edge equal to
`endpoints` (lines 93-95), which aborts and retries the whole contract step;
`some xy` models finding a boundary edge attached to an endpoint
(lines 96-99).  On stopping, the merged `endpoints` pair is re-added as a
boundary edge (line 111). -/
def walkLoop : Nat → GenState → Edge → List Draw →
    Option (GenState × List Draw)
  | 0, _, _, _ => none
  | fuel + 1, st, endpoints, .scanPick r :: rest =>
    match r with
    | none =>
      if endpoints ∈ st.outside then removeLines fuel st rest else none
    | some xy =>
      if xy ∈ st.outside ∧ xy ≠ endpoints ∧
          (xy.1 = endpoints.1 ∨ xy.1 = endpoints.2 ∨
           xy.2 = endpoints.1 ∨ xy.2 = endpoints.2) then
        let st2 : GenState :=
          { st with outside := st.outside.erase xy, edges := insert xy st.edges }
        let xy' : Edge :=
          if xy.1 = endpoints.1 ∨ xy.1 = endpoints.2 then
            (endpoints.1 + endpoints.2 - xy.1, xy.2)
          else
            (endpoints.1 + endpoints.2 - xy.2, xy.1)
        let ep : Edge := (min xy'.1 xy'.2, max xy'.1 xy'.2)
        match rest with
        | .coin b :: rest2 =>
          if b then some ({ st2 with outside := insert ep st2.outside }, rest2)
          else walkLoop fuel st2 ep rest2
        | _ => none
      else none
  | _ + 1, _, _, _ => none

end

/-- The inner `while len(self.outside_edges) > outside_limit` loop of
`RandomGraph2.__init__` (lines 51-55), with its probabilistic early break. -/
def shrinkLoop : Nat → Nat → GenState → List Draw →
    Option (GenState × List Draw)
  | 0, _, _, _ => none
  | fuel + 1, olimit, st, draws =>
    if olimit < st.outside.card then
      match draws with
      | .coin stop :: rest =>
        if stop then some (st, rest)
        else
          match removeLines fuel st rest with
          | some (st1, d1) => shrinkLoop fuel olimit st1 d1
          | none => none
      | _ => none
    else some (st, draws)

/-- The outer `while self.node_idx < node_limit` loop of
`RandomGraph2.__init__` (lines 49-55). -/
def outerLoop : Nat → Nat → GenState → List Draw →
    Option (GenState × List Draw)
  | 0, _, _, _ => none
  | fuel + 1, olimit, st, draws =>
    if st.nodeIdx < st.limit then
      match addLines fuel st draws with
      | some (st1, d1) =>
        match shrinkLoop fuel olimit st1 d1 with
        | some (st2, d2) => outerLoop fuel olimit st2 d2
        | none => none
      | none => none
    else some (st, draws)

/-- `int(node_limit*0.75 + 0.5)` of line 42 (exact for these dyadic floats). -/
def outsideLimitDefault (n : Nat) : Nat := (3 * n + 2) / 4

/-- The construction start (lines 37-38): the triangle boundary and vertex
counter 3. -/
def genInit (limit : Nat) : GenState :=
  { outside := {(0, 1), (1, 2), (0, 2)}, edges := ∅, nodeIdx := 3, limit := limit }

/-- `RandomGraph2.__init__` (lines 36-58): run the grow/contract loop and
finally merge the boundary into the permanent edge set (line 56). -/
def generate (limit fuel : Nat) (draws : List Draw) : Option GenState :=
  (outerLoop fuel (outsideLimitDefault limit) (genInit limit) draws).map
    (fun p => { p.1 with edges := p.1.edges ∪ p.1.outside })

/-- Number of edges of `E` incident to `v`. -/
def degreeIn (E : Finset Edge) (v : Nat) : Nat :=
  (E.filter (fun e => e.1 = v ∨ e.2 = v)).card

/-- One hop along an edge of `E`, in either direction. -/
def adjRel (E : Finset Edge) (a b : Nat) : Prop := (a, b) ∈ E ∨ (b, a) ∈ E

/-- Graph reachability over the edge set `E`. -/
def Reach (E : Finset Edge) : Nat → Nat → Prop :=
  Relation.ReflTransGen (adjRel E)

/-- The generator's running invariant: all stored tuples are in canonical
order with endpoints below the vertex counter, the counter stays within
`[3, max 3 limit]`, and every existing vertex has degree at least two in, and
is reachable inside, the union of the boundary and permanent edge sets. -/
def GInv (st : GenState) : Prop :=
  (∀ e ∈ st.outside ∪ st.edges, e.1 < e.2 ∧ e.2 < st.nodeIdx) ∧
  (3 ≤ st.nodeIdx ∧ st.nodeIdx ≤ max 3 st.limit) ∧
  (∀ v, v < st.nodeIdx → 2 ≤ degreeIn (st.outside ∪ st.edges) v) ∧
  (∀ v, v < st.nodeIdx → Reach (st.outside ∪ st.edges) 0 v)

/-! ## Basic lemmas about the collision-map representation -/

@[simp]
lemma mem_keys {m : Finset (Edge × Edge)} {e : Edge} :
    e ∈ keys m ↔ ∃ x, (e, x) ∈ m := by
  constructor
  · rintro h
    rcases Finset.mem_image.mp h with ⟨⟨a, b⟩, hab, rfl⟩
    exact ⟨b, hab⟩
  · rintro ⟨x, hx⟩
    exact Finset.mem_image.mpr ⟨(e, x), hx, rfl⟩

@[simp]
lemma mem_row {m : Finset (Edge × Edge)} {e x : Edge} :
    x ∈ row m e ↔ (e, x) ∈ m := by
  constructor
  · rintro h
    rcases Finset.mem_image.mp h with ⟨⟨a, b⟩, hab, rfl⟩
    rcases Finset.mem_filter.mp hab with ⟨hm, h1⟩
    simpa [show a = e from h1] using hm
  · rintro hx
    exact Finset.mem_image.mpr ⟨(e, x), Finset.mem_filter.mpr ⟨hx, rfl⟩, rfl⟩

lemma keys_eq_empty_iff {m : Finset (Edge × Edge)} : keys m = ∅ ↔ m = ∅ := by
  constructor
  · intro h
    ext ⟨a, b⟩
    simp only [Finset.not_mem_empty, iff_false]
    intro hab
    have : a ∈ keys m := mem_keys.mpr ⟨b, hab⟩
    simp [h] at this
  · rintro rfl
    simp [keys]

@[simp]
lemma mem_bruteMap {sc : SegCross} {pos : Vertex → Point} {E : Finset Edge}
    {e f : Edge} :
    (e, f) ∈ bruteMap sc pos E ↔ e ∈ E ∧ f ∈ E ∧ collides sc pos e f = true := by
  simp [bruteMap, Finset.mem_filter, Finset.mem_product, and_assoc]

lemma connectedEdges_symm (e f : Edge) : connectedEdges e f = connectedEdges f e := by
  have h : ({e.1, e.2, f.1, f.2} : Finset Vertex) = {f.1, f.2, e.1, e.2} := by
    ext x; simp; tauto
  simp [connectedEdges, h]

lemma collides_symm {sc : SegCross} (hs : SymmCross sc) (pos : Vertex → Point)
    (e f : Edge) : collides sc pos e f = collides sc pos f e := by
  simp [collides, connectedEdges_symm e f, hs (pos e.1) (pos e.2) (pos f.1) (pos f.2)]

lemma card_pair_le (a b : Vertex) : ({a, b} : Finset Vertex).card ≤ 2 :=
  le_trans (Finset.card_insert_le _ _) (by simp)

lemma card_triple_le (a b c : Vertex) : ({a, b, c} : Finset Vertex).card ≤ 3 :=
  le_trans (Finset.card_insert_le _ _) (Nat.succ_le_succ (card_pair_le _ _))

lemma connectedEdges_of_shares {e f : Edge} (h : SharesEndpoint e f) :
    connectedEdges e f = true := by
  have hle : ({e.1, e.2, f.1, f.2} : Finset Vertex).card ≤ 3 := by
    rcases h with h | h | h | h
    · have hsub : ({e.1, e.2, f.1, f.2} : Finset Vertex) ⊆ {e.1, e.2, f.2} := by
        intro x hx; simp at hx ⊢; rcases hx with rfl | rfl | rfl | rfl <;> tauto
      exact le_trans (Finset.card_le_card hsub) (card_triple_le _ _ _)
    · have hsub : ({e.1, e.2, f.1, f.2} : Finset Vertex) ⊆ {e.1, e.2, f.1} := by
        intro x hx; simp at hx ⊢; rcases hx with rfl | rfl | rfl | rfl <;> tauto
      exact le_trans (Finset.card_le_card hsub) (card_triple_le _ _ _)
    · have hsub : ({e.1, e.2, f.1, f.2} : Finset Vertex) ⊆ {e.1, e.2, f.2} := by
        intro x hx; simp at hx ⊢; rcases hx with rfl | rfl | rfl | rfl <;> tauto
      exact le_trans (Finset.card_le_card hsub) (card_triple_le _ _ _)
    · have hsub : ({e.1, e.2, f.1, f.2} : Finset Vertex) ⊆ {e.1, e.2, f.1} := by
        intro x hx; simp at hx ⊢; rcases hx with rfl | rfl | rfl | rfl <;> tauto
      exact le_trans (Finset.card_le_card hsub) (card_triple_le _ _ _)
  simp [connectedEdges]
  omega

lemma collides_of_shares {sc : SegCross} {pos : Vertex → Point} {e f : Edge}
    (h : SharesEndpoint e f) : collides sc pos e f = false := by
  simp [collides, connectedEdges_of_shares h]

@[simp]
lemma collides_self {sc : SegCross} {pos : Vertex → Point} (e : Edge) :
    collides sc pos e e = false :=
  collides_of_shares (Or.inl rfl)

lemma collides_incident_false {sc : SegCross} {pos : Vertex → Point} {v : Vertex}
    {e f : Edge} (he : e.1 = v ∨ e.2 = v) (hf : f.1 = v ∨ f.2 = v) :
    collides sc pos e f = false := by
  apply collides_of_shares
  unfold SharesEndpoint
  rcases he with he | he <;> rcases hf with hf | hf <;> rw [he, hf] <;> tauto

lemma collides_not_incident {sc : SegCross} {v : Vertex} {pOld pNew : Vertex → Point}
    (hpos : ∀ w, w ≠ v → pOld w = pNew w) {e f : Edge}
    (he : ¬(e.1 = v ∨ e.2 = v)) (hf : ¬(f.1 = v ∨ f.2 = v)) :
    collides sc pOld e f = collides sc pNew e f := by
  push_neg at he hf
  rw [collides, collides, hpos _ he.1, hpos _ he.2, hpos _ hf.1, hpos _ hf.2]

/-! ## The mixed collision relation

While `updateNode` walks the edges incident to the moved vertex `v`, the
collision map records crossings against the new position for the incident
edges already processed and against the old position for the not yet
processed ones (two incident edges share `v` and hence never collide, so
their mutual entries are unaffected).  `U` is the set of unprocessed
incident edges. -/

def mixedCollides (sc : SegCross) (pOld pNew : Vertex → Point) (U : Finset Edge)
    (e f : Edge) : Bool :=
  if e ∈ U ∨ f ∈ U then collides sc pOld e f else collides sc pNew e f

def mixedMap (sc : SegCross) (pOld pNew : Vertex → Point) (U E : Finset Edge) :
    Finset (Edge × Edge) :=
  (E ×ˢ E).filter (fun p => mixedCollides sc pOld pNew U p.1 p.2)

@[simp]
lemma mem_mixedMap {sc : SegCross} {pOld pNew : Vertex → Point} {U E : Finset Edge}
    {e f : Edge} :
    (e, f) ∈ mixedMap sc pOld pNew U E ↔
      e ∈ E ∧ f ∈ E ∧ mixedCollides sc pOld pNew U e f = true := by
  simp [mixedMap, Finset.mem_filter, Finset.mem_product, and_assoc]

lemma mixedCollides_symm {sc : SegCross} (hs : SymmCross sc)
    (pOld pNew : Vertex → Point) (U : Finset Edge) (e f : Edge) :
    mixedCollides sc pOld pNew U e f = mixedCollides sc pOld pNew U f e := by
  unfold mixedCollides
  by_cases h : e ∈ U ∨ f ∈ U
  · rw [if_pos h, if_pos (Or.symm h), collides_symm hs pOld e f]
  · rw [if_neg h, if_neg (fun hc => h (Or.symm hc)), collides_symm hs pNew e f]

lemma mixedMap_empty (sc : SegCross) (pOld pNew : Vertex → Point) (E : Finset Edge) :
    mixedMap sc pOld pNew ∅ E = bruteMap sc pNew E := by
  ext ⟨e, f⟩
  simp [mixedCollides]

lemma bruteMap_eq_mixedMap {sc : SegCross} {v : Vertex} {pOld pNew : Vertex → Point}
    (hpos : ∀ w, w ≠ v → pOld w = pNew w) {E U : Finset Edge}
    (hcov : ∀ e ∈ E, (e.1 = v ∨ e.2 = v) → e ∈ U) :
    bruteMap sc pOld E = mixedMap sc pOld pNew U E := by
  ext ⟨e, f⟩
  simp only [mem_bruteMap, mem_mixedMap]
  constructor
  · rintro ⟨he, hf, hc⟩
    refine ⟨he, hf, ?_⟩
    unfold mixedCollides
    split
    · exact hc
    · rename_i hcond
      push_neg at hcond
      rw [← collides_not_incident hpos (fun h => hcond.1 (hcov e he h))
        (fun h => hcond.2 (hcov f hf h))]
      exact hc
  · rintro ⟨he, hf, hc⟩
    refine ⟨he, hf, ?_⟩
    unfold mixedCollides at hc
    split at hc
    · exact hc
    · rename_i hcond
      push_neg at hcond
      rw [collides_not_incident hpos (fun h => hcond.1 (hcov e he h))
        (fun h => hcond.2 (hcov f hf h))]
      exact hc

/-! ## The update step: branch-independent description of the new map -/

@[simp]
lemma updateEdgeStep_edges (sc : SegCross) (st : Tracker) (ab : Edge) :
    (updateEdgeStep sc st ab).edges = st.edges := by
  unfold updateEdgeStep
  dsimp only
  split_ifs <;> rfl

@[simp]
lemma updateEdgeStep_pos (sc : SegCross) (st : Tracker) (ab : Edge) :
    (updateEdgeStep sc st ab).pos = st.pos := by
  unfold updateEdgeStep
  dsimp only
  split_ifs <;> rfl

@[simp]
lemma updateEdgeStep_n (sc : SegCross) (st : Tracker) (ab : Edge) :
    (updateEdgeStep sc st ab).n = st.n := by
  unfold updateEdgeStep
  dsimp only
  split_ifs <;> rfl

@[simp]
lemma updateEdgeStep_n2l (sc : SegCross) (st : Tracker) (ab : Edge) :
    (updateEdgeStep sc st ab).n2l = st.n2l := by
  unfold updateEdgeStep
  dsimp only
  split_ifs <;> rfl

lemma mem_removalMap {m : Finset (Edge × Edge)} {ab : Edge} {C : Finset Edge}
    {e f : Edge} :
    (e, f) ∈ removalMap m ab C ↔
      (e, f) ∈ m ∧ ¬(f = ab ∧ (ab, e) ∈ m ∧ e ∉ C) := by
  unfold removalMap
  simp only [Finset.mem_sdiff, Finset.mem_image, Finset.mem_sdiff, mem_row,
    Prod.mk.injEq]
  constructor
  · rintro ⟨hm, hnot⟩
    refine ⟨hm, ?_⟩
    rintro ⟨rfl, hrow, hC⟩
    exact hnot ⟨e, ⟨hrow, hC⟩, rfl, rfl⟩
  · rintro ⟨hm, hnot⟩
    refine ⟨hm, ?_⟩
    rintro ⟨x, ⟨hrow, hC⟩, rfl, rfl⟩
    exact hnot ⟨rfl, hrow, hC⟩

lemma updateEdgeStep_coll (sc : SegCross) (st : Tracker) (ab : Edge) :
    (updateEdgeStep sc st ab).coll =
      ((removalMap st.coll ab (currColl sc st ab)).filter (fun p => p.1 ≠ ab) ∪
        (currColl sc st ab).image (fun x => (ab, x))) ∪
        (currColl sc st ab).image (fun x => (x, ab)) := by
  unfold updateEdgeStep
  dsimp only
  split_ifs with h1 h2
  · rfl
  · have hC : currColl sc st ab = ∅ := Finset.not_nonempty_iff_eq_empty.mp h1
    simp [hC]
  · have hC : currColl sc st ab = ∅ := Finset.not_nonempty_iff_eq_empty.mp h1
    rw [hC] at h2 ⊢
    simp only [Finset.image_empty, Finset.union_empty]
    refine (Finset.filter_true_of_mem ?_).symm
    intro p hp hpab
    have hpeta : ((ab, p.2) : Edge × Edge) = p := by rw [← hpab]
    exact h2 (mem_keys.mpr ⟨p.2, hpeta ▸ hp⟩)

lemma updateEdgeStep_coll_mem (sc : SegCross) (st : Tracker) (ab e f : Edge) :
    (e, f) ∈ (updateEdgeStep sc st ab).coll ↔
      (((e, f) ∈ removalMap st.coll ab (currColl sc st ab) ∧ e ≠ ab) ∨
       (e = ab ∧ f ∈ currColl sc st ab) ∨
       (f = ab ∧ e ∈ currColl sc st ab)) := by
  rw [updateEdgeStep_coll]
  simp only [Finset.mem_union, Finset.mem_filter, Finset.mem_image, Prod.mk.injEq]
  constructor
  · rintro ((⟨hm, hne⟩ | ⟨x, hx, rfl, rfl⟩) | ⟨x, hx, rfl, rfl⟩)
    · exact Or.inl ⟨hm, hne⟩
    · exact Or.inr (Or.inl ⟨rfl, hx⟩)
    · exact Or.inr (Or.inr ⟨rfl, hx⟩)
  · rintro (⟨hm, hne⟩ | ⟨rfl, hf⟩ | ⟨rfl, he⟩)
    · exact Or.inl (Or.inl ⟨hm, hne⟩)
    · exact Or.inl (Or.inr ⟨f, hf, rfl, rfl⟩)
    · exact Or.inr ⟨e, he, rfl, rfl⟩

@[simp]
lemma mem_currColl {sc : SegCross} {st : Tracker} {ab x : Edge} :
    x ∈ currColl sc st ab ↔ x ∈ st.edges ∧ collides sc st.pos ab x = true := by
  simp [currColl]

lemma ab_not_mem_currColl (sc : SegCross) (st : Tracker) (ab : Edge) :
    ab ∉ currColl sc st ab := by
  intro h
  have := (mem_currColl.mp h).2
  simp at this

lemma updateEdgeStep_unt_pos (sc : SegCross) (st : Tracker) (ab : Edge)
    (h : (currColl sc st ab).Nonempty) :
    (updateEdgeStep sc st ab).untangled =
      ((st.untangled ∪ (row st.coll ab \ currColl sc st ab).filter
          (fun xy => row (removalMap st.coll ab (currColl sc st ab)) xy = ∅)).erase ab) \
        (currColl sc st ab).filter
          (fun xy => row (removalMap st.coll ab (currColl sc st ab)) xy = ∅) := by
  unfold updateEdgeStep
  dsimp only
  rw [if_pos h]

lemma updateEdgeStep_unt_mid (sc : SegCross) (st : Tracker) (ab : Edge)
    (h1 : ¬(currColl sc st ab).Nonempty)
    (h2 : ab ∈ keys (removalMap st.coll ab (currColl sc st ab))) :
    (updateEdgeStep sc st ab).untangled =
      insert ab (st.untangled ∪ (row st.coll ab \ currColl sc st ab).filter
        (fun xy => row (removalMap st.coll ab (currColl sc st ab)) xy = ∅)) := by
  unfold updateEdgeStep
  dsimp only
  rw [if_neg h1, if_pos h2]

lemma updateEdgeStep_unt_low (sc : SegCross) (st : Tracker) (ab : Edge)
    (h1 : ¬(currColl sc st ab).Nonempty)
    (h2 : ab ∉ keys (removalMap st.coll ab (currColl sc st ab))) :
    (updateEdgeStep sc st ab).untangled =
      st.untangled ∪ (row st.coll ab \ currColl sc st ab).filter
        (fun xy => row (removalMap st.coll ab (currColl sc st ab)) xy = ∅) := by
  unfold updateEdgeStep
  dsimp only
  rw [if_neg h1, if_neg h2]

/-- The update step keeps `untangled` the exact complement of the collision
map's key set, for any symmetric, irreflexive collision map supported on the
edge set (the commented-out sanity check of lines 261-268). -/
lemma updateEdgeStep_untangled (sc : SegCross) (st : Tracker) (ab : Edge)
    (hirr : ∀ e : Edge, (e, e) ∉ st.coll)
    (hsub : ∀ e f : Edge, (e, f) ∈ st.coll → e ∈ st.edges ∧ f ∈ st.edges)
    (hunt : st.untangled = st.edges \ keys st.coll) :
    (updateEdgeStep sc st ab).untangled =
      st.edges \ keys (updateEdgeStep sc st ab).coll := by
  classical
  have habC : ab ∉ currColl sc st ab := ab_not_mem_currColl sc st ab
  have hTmem : ∀ x y : Edge,
      (x, y) ∈ (updateEdgeStep sc st ab).coll ↔
        (((x, y) ∈ st.coll ∧
            ¬(y = ab ∧ (ab, x) ∈ st.coll ∧ x ∉ currColl sc st ab) ∧ x ≠ ab) ∨
         (x = ab ∧ y ∈ currColl sc st ab) ∨
         (y = ab ∧ x ∈ currColl sc st ab)) := by
    intro x y
    rw [updateEdgeStep_coll_mem, mem_removalMap]
    tauto
  have hm1 : ∀ x y : Edge,
      (x, y) ∈ removalMap st.coll ab (currColl sc st ab) ↔
        ((x, y) ∈ st.coll ∧
          ¬(y = ab ∧ (ab, x) ∈ st.coll ∧ x ∉ currColl sc st ab)) :=
    fun x y => mem_removalMap
  have hrow_empty : ∀ x : Edge,
      (row (removalMap st.coll ab (currColl sc st ab)) x = ∅) ↔
        ∀ y, (x, y) ∈ st.coll →
          (y = ab ∧ (ab, x) ∈ st.coll ∧ x ∉ currColl sc st ab) := by
    intro x
    rw [Finset.eq_empty_iff_forall_not_mem]
    constructor
    · intro h y hy
      by_contra hne
      exact h y (mem_row.mpr ((hm1 x y).mpr ⟨hy, hne⟩))
    · intro h z hz
      rw [mem_row, hm1 x z] at hz
      exact hz.2 (h z hz.1)
  have huMem : ∀ x : Edge,
      x ∈ st.untangled ↔ (x ∈ st.edges ∧ ∀ y, (x, y) ∉ st.coll) := by
    intro x
    rw [hunt, Finset.mem_sdiff]
    simp only [mem_keys, not_exists]
  ext x
  rw [Finset.mem_sdiff]
  simp only [mem_keys, not_exists]
  by_cases hCne : (currColl sc st ab).Nonempty
  · rw [updateEdgeStep_unt_pos sc st ab hCne]
    by_cases hxab : x = ab
    · subst hxab
      obtain ⟨c, hc⟩ := hCne
      apply iff_of_false
      · intro h
        exact (Finset.mem_erase.mp (Finset.mem_sdiff.mp h).1).1 rfl
      · rintro ⟨hE, hall⟩
        exact hall c ((hTmem x c).mpr (Or.inr (Or.inl ⟨rfl, hc⟩)))
    · rw [Finset.mem_sdiff, Finset.mem_erase]
      simp only [Finset.mem_union, Finset.mem_filter, Finset.mem_sdiff, mem_row]
      constructor
      · rintro ⟨⟨-, hmem⟩, hnotK⟩
        rcases hmem with hu | ⟨⟨habx, hxC⟩, hrow0⟩
        · obtain ⟨hxE, hnone⟩ := (huMem x).mp hu
          have hxC : x ∉ currColl sc st ab := by
            intro hxC
            apply hnotK
            refine ⟨hxC, (hrow_empty x).mpr ?_⟩
            intro y hy
            exact absurd hy (hnone y)
          refine ⟨hxE, ?_⟩
          intro y hy
          rcases (hTmem x y).mp hy with ⟨hM, -, -⟩ | ⟨hxab', -⟩ | ⟨-, hxC'⟩
          · exact hnone y hM
          · exact hxab hxab'
          · exact hxC hxC'
        · refine ⟨(hsub ab x habx).2, ?_⟩
          intro y hy
          rcases (hTmem x y).mp hy with ⟨hM, hcond, -⟩ | ⟨hxab', -⟩ | ⟨-, hxC'⟩
          · exact hcond ((hrow_empty x).mp hrow0 y hM)
          · exact hxab hxab'
          · exact hxC hxC'
      · rintro ⟨hxE, hall⟩
        have hxC : x ∉ currColl sc st ab :=
          fun hxC => hall ab ((hTmem x ab).mpr (Or.inr (Or.inr ⟨rfl, hxC⟩)))
        have hm1none : ∀ y, (x, y) ∉ removalMap st.coll ab (currColl sc st ab) := by
          intro y hy
          obtain ⟨h1, h2⟩ := (hm1 x y).mp hy
          exact hall y ((hTmem x y).mpr (Or.inl ⟨h1, h2, hxab⟩))
        have hrow0 : row (removalMap st.coll ab (currColl sc st ab)) x = ∅ :=
          Finset.eq_empty_iff_forall_not_mem.mpr
            (fun z hz => hm1none z (mem_row.mp hz))
        refine ⟨⟨hxab, ?_⟩, fun h => hxC h.1⟩
        by_cases habx : (ab, x) ∈ st.coll
        · exact Or.inr ⟨⟨habx, hxC⟩, hrow0⟩
        · left
          rw [huMem]
          refine ⟨hxE, ?_⟩
          intro y hy
          have hno : (x, y) ∉ removalMap st.coll ab (currColl sc st ab) := hm1none y
          rw [hm1 x y] at hno
          have hcond : y = ab ∧ (ab, x) ∈ st.coll ∧ x ∉ currColl sc st ab := by
            by_contra hc
            exact hno ⟨hy, hc⟩
          exact habx hcond.2.1
  · have hC0 : currColl sc st ab = ∅ := Finset.not_nonempty_iff_eq_empty.mp hCne
    have hTmem2 : ∀ x y : Edge,
        (x, y) ∈ (updateEdgeStep sc st ab).coll ↔
          ((x, y) ∈ st.coll ∧ ¬(y = ab ∧ (ab, x) ∈ st.coll) ∧ x ≠ ab) := by
      intro x y
      rw [hTmem x y]
      simp [hC0]
    have hCno : ∀ z : Edge, z ∉ currColl sc st ab := by
      intro z hz
      rw [hC0] at hz
      exact Finset.not_mem_empty z hz
    by_cases hkey : ab ∈ keys (removalMap st.coll ab (currColl sc st ab))
    · rw [updateEdgeStep_unt_mid sc st ab hCne hkey]
      by_cases hxab : x = ab
      · subst hxab
        apply iff_of_true (Finset.mem_insert_self _ _)
        obtain ⟨y0, hy0⟩ := mem_keys.mp hkey
        have habE : x ∈ st.edges := (hsub x y0 ((hm1 x y0).mp hy0).1).1
        refine ⟨habE, ?_⟩
        intro y hy
        rcases (hTmem2 x y).mp hy with ⟨-, -, hne⟩
        exact hne rfl
      · rw [Finset.mem_insert]
        simp only [Finset.mem_union, Finset.mem_filter, Finset.mem_sdiff, mem_row]
        constructor
        · rintro (hxab' | hmem)
          · exact absurd hxab' hxab
          rcases hmem with hu | ⟨⟨habx, -⟩, hrow0⟩
          · obtain ⟨hxE, hnone⟩ := (huMem x).mp hu
            refine ⟨hxE, ?_⟩
            intro y hy
            exact hnone y ((hTmem2 x y).mp hy).1
          · refine ⟨(hsub ab x habx).2, ?_⟩
            intro y hy
            obtain ⟨hM, hcond, -⟩ := (hTmem2 x y).mp hy
            have hc := (hrow_empty x).mp hrow0 y hM
            exact hcond ⟨hc.1, hc.2.1⟩
        · rintro ⟨hxE, hall⟩
          right
          have hm1none : ∀ y, (x, y) ∉ removalMap st.coll ab (currColl sc st ab) := by
            intro y hy
            obtain ⟨h1, h2⟩ := (hm1 x y).mp hy
            refine hall y ((hTmem2 x y).mpr ⟨h1, ?_, hxab⟩)
            intro hc
            exact h2 ⟨hc.1, hc.2, hCno x⟩
          have hrow0 : row (removalMap st.coll ab (currColl sc st ab)) x = ∅ :=
            Finset.eq_empty_iff_forall_not_mem.mpr
              (fun z hz => hm1none z (mem_row.mp hz))
          by_cases habx : (ab, x) ∈ st.coll
          · exact Or.inr ⟨⟨habx, hCno x⟩, hrow0⟩
          · left
            rw [huMem]
            refine ⟨hxE, ?_⟩
            intro y hy
            have hno := hm1none y
            rw [hm1 x y] at hno
            have hcond : y = ab ∧ (ab, x) ∈ st.coll ∧ x ∉ currColl sc st ab := by
              by_contra hc
              exact hno ⟨hy, hc⟩
            exact habx hcond.2.1
    · rw [updateEdgeStep_unt_low sc st ab hCne hkey]
      have habrow : ∀ y, (ab, y) ∉ st.coll := by
        intro y hy
        apply hkey
        refine mem_keys.mpr ⟨y, (hm1 ab y).mpr ⟨hy, ?_⟩⟩
        rintro ⟨-, habab, -⟩
        exact hirr ab habab
      by_cases hxab : x = ab
      · simp only [Finset.mem_union, Finset.mem_filter, Finset.mem_sdiff, mem_row]
        subst hxab
        constructor
        · rintro (hu | ⟨⟨habx, -⟩, -⟩)
          · obtain ⟨hxE, -⟩ := (huMem x).mp hu
            refine ⟨hxE, ?_⟩
            intro y hy
            exact ((hTmem2 x y).mp hy).2.2 rfl
          · exact absurd habx (habrow x)
        · rintro ⟨hxE, -⟩
          left
          rw [huMem]
          exact ⟨hxE, habrow⟩
      · simp only [Finset.mem_union, Finset.mem_filter, Finset.mem_sdiff, mem_row]
        constructor
        · rintro (hu | ⟨⟨habx, -⟩, hrow0⟩)
          · obtain ⟨hxE, hnone⟩ := (huMem x).mp hu
            refine ⟨hxE, ?_⟩
            intro y hy
            exact hnone y ((hTmem2 x y).mp hy).1
          · refine ⟨(hsub ab x habx).2, ?_⟩
            intro y hy
            obtain ⟨hM, hcond, -⟩ := (hTmem2 x y).mp hy
            have hc := (hrow_empty x).mp hrow0 y hM
            exact hcond ⟨hc.1, hc.2.1⟩
        · rintro ⟨hxE, hall⟩
          have hm1none : ∀ y, (x, y) ∉ removalMap st.coll ab (currColl sc st ab) := by
            intro y hy
            obtain ⟨h1, h2⟩ := (hm1 x y).mp hy
            refine hall y ((hTmem2 x y).mpr ⟨h1, ?_, hxab⟩)
            intro hc
            exact h2 ⟨hc.1, hc.2, hCno x⟩
          have hrow0 : row (removalMap st.coll ab (currColl sc st ab)) x = ∅ :=
            Finset.eq_empty_iff_forall_not_mem.mpr
              (fun z hz => hm1none z (mem_row.mp hz))
          by_cases habx : (ab, x) ∈ st.coll
          · exact Or.inr ⟨⟨habx, hCno x⟩, hrow0⟩
          · left
            rw [huMem]
            refine ⟨hxE, ?_⟩
            intro y hy
            have hno := hm1none y
            rw [hm1 x y] at hno
            have hcond : y = ab ∧ (ab, x) ∈ st.coll ∧ x ∉ currColl sc st ab := by
              by_contra hc
              exact hno ⟨hy, hc⟩
            exact habx hcond.2.1

/-- Collision-map effect of one `updateNode` loop iteration: processing the
incident edge `ab` moves it from the "old position" side of the mixed
relation to the "new position" side. -/
lemma step_mixed_coll {sc : SegCross} (hs : SymmCross sc) {v : Vertex}
    {pOld pNew : Vertex → Point}
    {E U : Finset Edge} (hU : ∀ e ∈ U, e.1 = v ∨ e.2 = v)
    {ab : Edge} (habU : ab ∈ U) (habE : ab ∈ E) {st : Tracker}
    (hE : st.edges = E) (hP : st.pos = pNew)
    (hC : st.coll = mixedMap sc pOld pNew U E) :
    (updateEdgeStep sc st ab).coll = mixedMap sc pOld pNew (U.erase ab) E := by
  classical
  have habv : ab.1 = v ∨ ab.2 = v := hU ab habU
  have hCm : ∀ x : Edge,
      x ∈ currColl sc st ab ↔ x ∈ E ∧ collides sc pNew ab x = true := by
    intro x
    rw [mem_currColl, hE, hP]
  have hMm : ∀ e f : Edge, (e, f) ∈ st.coll ↔
      e ∈ E ∧ f ∈ E ∧ mixedCollides sc pOld pNew U e f = true := by
    intro e f
    rw [hC]
    exact mem_mixedMap
  have hCnotU : ∀ x, x ∈ currColl sc st ab → x ∉ U := by
    intro x hx hxU
    have h2 := ((hCm x).mp hx).2
    rw [collides_incident_false habv (hU x hxU)] at h2
    exact Bool.false_ne_true h2
  have hMsym : ∀ e f : Edge, (e, f) ∈ st.coll → (f, e) ∈ st.coll := by
    intro e f h
    rw [hMm] at h ⊢
    refine ⟨h.2.1, h.1, ?_⟩
    rw [mixedCollides_symm hs]
    exact h.2.2
  have habU' : ab ∉ U.erase ab := Finset.not_mem_erase ab U
  have hmc_erase : ∀ e f : Edge, e ≠ ab → f ≠ ab →
      mixedCollides sc pOld pNew (U.erase ab) e f =
        mixedCollides sc pOld pNew U e f := by
    intro e f he hf
    unfold mixedCollides
    by_cases hcond : e ∈ U ∨ f ∈ U
    · rw [if_pos hcond, if_pos ?_]
      rcases hcond with h | h
      · exact Or.inl (Finset.mem_erase.mpr ⟨he, h⟩)
      · exact Or.inr (Finset.mem_erase.mpr ⟨hf, h⟩)
    · rw [if_neg hcond, if_neg ?_]
      intro hc
      rcases hc with h | h
      · exact hcond (Or.inl (Finset.mem_erase.mp h).2)
      · exact hcond (Or.inr (Finset.mem_erase.mp h).2)
  ext ⟨e, f⟩
  rw [updateEdgeStep_coll_mem, mem_removalMap, mem_mixedMap]
  constructor
  · rintro (⟨⟨hM, hnot⟩, hne⟩ | ⟨heab, hfC⟩ | ⟨hfab, heC⟩)
    · obtain ⟨heE, hfE, hmix⟩ := (hMm e f).mp hM
      refine ⟨heE, hfE, ?_⟩
      by_cases hfab : f = ab
      · have heC : e ∈ currColl sc st ab := by
          by_contra heC
          refine hnot ⟨hfab, ?_, heC⟩
          apply hMsym
          rw [← hfab]
          exact hM
        unfold mixedCollides
        rw [if_neg ?_]
        · rw [hfab, collides_symm hs pNew e ab]
          exact ((hCm e).mp heC).2
        · rintro (h | h)
          · exact hCnotU e heC (Finset.mem_erase.mp h).2
          · rw [hfab] at h
            exact habU' h
      · rw [hmc_erase e f hne hfab]
        exact hmix
    · refine ⟨by rw [heab]; exact habE, ((hCm f).mp hfC).1, ?_⟩
      unfold mixedCollides
      rw [if_neg ?_]
      · rw [heab]
        exact ((hCm f).mp hfC).2
      · rintro (h | h)
        · rw [heab] at h
          exact habU' h
        · exact hCnotU f hfC (Finset.mem_erase.mp h).2
    · refine ⟨((hCm e).mp heC).1, by rw [hfab]; exact habE, ?_⟩
      unfold mixedCollides
      rw [if_neg ?_]
      · rw [hfab, collides_symm hs pNew e ab]
        exact ((hCm e).mp heC).2
      · rintro (h | h)
        · exact hCnotU e heC (Finset.mem_erase.mp h).2
        · rw [hfab] at h
          exact habU' h
  · rintro ⟨heE, hfE, hmix'⟩
    by_cases he : e = ab
    · by_cases hf : f = ab
      · exfalso
        rw [he, hf] at hmix'
        unfold mixedCollides at hmix'
        split at hmix' <;> simp at hmix'
      · right
        left
        refine ⟨he, ?_⟩
        rw [hCm]
        refine ⟨hfE, ?_⟩
        by_cases hfU : f ∈ U
        · exfalso
          unfold mixedCollides at hmix'
          rw [if_pos (Or.inr (Finset.mem_erase.mpr ⟨hf, hfU⟩))] at hmix'
          rw [he, collides_incident_false habv (hU f hfU)] at hmix'
          exact Bool.false_ne_true hmix'
        · unfold mixedCollides at hmix'
          rw [if_neg ?_] at hmix'
          · rw [he] at hmix'
            exact hmix'
          · rintro (h | h)
            · rw [he] at h
              exact habU' h
            · exact hfU (Finset.mem_erase.mp h).2
    · by_cases hf : f = ab
      · right
        right
        refine ⟨hf, ?_⟩
        rw [hCm]
        refine ⟨heE, ?_⟩
        by_cases heU : e ∈ U
        · exfalso
          unfold mixedCollides at hmix'
          rw [if_pos (Or.inl (Finset.mem_erase.mpr ⟨he, heU⟩))] at hmix'
          rw [hf, collides_incident_false (hU e heU) habv] at hmix'
          exact Bool.false_ne_true hmix'
        · unfold mixedCollides at hmix'
          rw [if_neg ?_] at hmix'
          · rw [hf] at hmix'
            rw [collides_symm hs pNew ab e]
            exact hmix'
          · rintro (h | h)
            · exact heU (Finset.mem_erase.mp h).2
            · rw [hf] at h
              exact habU' h
      · left
        refine ⟨⟨?_, ?_⟩, he⟩
        · rw [hMm]
          refine ⟨heE, hfE, ?_⟩
          rw [← hmc_erase e f he hf]
          exact hmix'
        · rintro ⟨hfab, -, -⟩
          exact hf hfab

lemma mixedMap_irrefl (sc : SegCross) (pOld pNew : Vertex → Point)
    (U E : Finset Edge) (e : Edge) : (e, e) ∉ mixedMap sc pOld pNew U E := by
  rw [mem_mixedMap]
  rintro ⟨-, -, h⟩
  unfold mixedCollides at h
  split at h <;> simp at h

/-- Folding the update step over a duplicate-free list of edges incident to
`v` that covers all the unprocessed incident edges turns the mixed map into
the brute-force map at the new positions. -/
lemma foldl_mixed {sc : SegCross} (hs : SymmCross sc) {v : Vertex}
    {pOld pNew : Vertex → Point} {E : Finset Edge} (l : List Edge) :
    ∀ st : Tracker, l.Nodup →
      (∀ e ∈ l, (e.1 = v ∨ e.2 = v) ∧ e ∈ E) →
      st.edges = E → st.pos = pNew →
      st.coll = mixedMap sc pOld pNew l.toFinset E →
      st.untangled = E \ keys st.coll →
      ((l.foldl (updateEdgeStep sc) st).coll = bruteMap sc pNew E ∧
        (l.foldl (updateEdgeStep sc) st).untangled =
          E \ keys ((l.foldl (updateEdgeStep sc) st).coll) ∧
        (l.foldl (updateEdgeStep sc) st).edges = E ∧
        (l.foldl (updateEdgeStep sc) st).pos = pNew ∧
        (l.foldl (updateEdgeStep sc) st).n2l = st.n2l ∧
        (l.foldl (updateEdgeStep sc) st).n = st.n) := by
  induction l with
  | nil =>
    intro st _ _ hE hP hC hunt
    refine ⟨?_, ?_, hE, hP, rfl, rfl⟩
    · rw [List.foldl_nil, hC, List.toFinset_nil, mixedMap_empty]
    · rw [List.foldl_nil, hunt]
  | cons ab rest ih =>
    intro st hnd hmem hE hP hC hunt
    obtain ⟨habr, hndr⟩ := List.nodup_cons.mp hnd
    have habU : ab ∈ (ab :: rest).toFinset := by simp
    have hU : ∀ e ∈ (ab :: rest).toFinset, e.1 = v ∨ e.2 = v := by
      intro e he
      exact (hmem e (List.mem_toFinset.mp he)).1
    have habE : ab ∈ E := (hmem ab (List.mem_cons_self ab rest)).2
    have herase : (ab :: rest).toFinset.erase ab = rest.toFinset := by
      rw [List.toFinset_cons]
      exact Finset.erase_insert (by simpa using habr)
    have hC1 : (updateEdgeStep sc st ab).coll =
        mixedMap sc pOld pNew rest.toFinset E := by
      rw [step_mixed_coll hs hU habU habE hE hP hC, herase]
    have hirr : ∀ e : Edge, (e, e) ∉ st.coll := by
      intro e
      rw [hC]
      exact mixedMap_irrefl sc pOld pNew _ E e
    have hsub : ∀ e f : Edge, (e, f) ∈ st.coll → e ∈ st.edges ∧ f ∈ st.edges := by
      intro e f h
      rw [hC] at h
      rw [hE]
      exact ⟨(mem_mixedMap.mp h).1, (mem_mixedMap.mp h).2.1⟩
    have hunt' : st.untangled = st.edges \ keys st.coll := by
      rw [hE]
      exact hunt
    have hunt1 : (updateEdgeStep sc st ab).untangled =
        E \ keys (updateEdgeStep sc st ab).coll := by
      rw [updateEdgeStep_untangled sc st ab hirr hsub hunt', hE]
    rw [List.foldl_cons]
    have hres := ih (updateEdgeStep sc st ab) hndr
      (fun e he => hmem e (List.mem_cons_of_mem ab he))
      (by rw [updateEdgeStep_edges, hE])
      (by rw [updateEdgeStep_pos, hP]) hC1 hunt1
    refine ⟨hres.1, hres.2.1, hres.2.2.1, hres.2.2.2.1, ?_, ?_⟩
    · rw [hres.2.2.2.2.1, updateEdgeStep_n2l]
    · rw [hres.2.2.2.2.2, updateEdgeStep_n]

/-! ## `Scene.init` builds the brute-force map -/

lemma initFold_closed {sc : SegCross} (hs : SymmCross sc) (pos : Vertex → Point) :
    ∀ (l : List Edge) (P : Finset Edge),
      (∀ x ∈ l, x ∉ P) → l.Nodup →
      (l.foldl (initStep sc pos) (P, bruteMap sc pos P)).2 =
          bruteMap sc pos (P ∪ l.toFinset) ∧
        (l.foldl (initStep sc pos) (P, bruteMap sc pos P)).1 = P ∪ l.toFinset := by
  intro l
  induction l with
  | nil =>
    intro P _ _
    simp
  | cons ab rest ih =>
    intro P hpl hnd
    obtain ⟨habr, hndr⟩ := List.nodup_cons.mp hnd
    have habP : ab ∉ P := hpl ab (List.mem_cons_self ab rest)
    have hstep : initStep sc pos (P, bruteMap sc pos P) ab =
        (insert ab P, bruteMap sc pos (insert ab P)) := by
      unfold initStep
      dsimp only
      congr 1
      ext ⟨e, f⟩
      simp only [Finset.mem_union, Finset.mem_image, Finset.mem_filter,
        mem_bruteMap, Finset.mem_insert, Prod.mk.injEq]
      constructor
      · rintro ((⟨he, hf, hc⟩ | ⟨x, ⟨hx, hc⟩, rfl, rfl⟩) | ⟨x, ⟨hx, hc⟩, rfl, rfl⟩)
        · exact ⟨Or.inr he, Or.inr hf, hc⟩
        · exact ⟨Or.inl rfl, Or.inr hx, hc⟩
        · exact ⟨Or.inr hx, Or.inl rfl, by rw [collides_symm hs pos]; exact hc⟩
      · rintro ⟨rfl | he, rfl | hf, hc⟩
        · rw [collides_self] at hc
          cases hc
        · exact Or.inl (Or.inr ⟨f, ⟨hf, hc⟩, rfl, rfl⟩)
        · exact Or.inr ⟨e, ⟨he, by rw [collides_symm hs pos]; exact hc⟩, rfl, rfl⟩
        · exact Or.inl (Or.inl ⟨he, hf, hc⟩)
    rw [List.foldl_cons, hstep]
    have hres := ih (insert ab P)
      (fun x hx hmem => by
        rcases Finset.mem_insert.mp hmem with rfl | hxP
        · exact habr hx
        · exact hpl x (List.mem_cons_of_mem ab hx) hxP)
      hndr
    have hun : insert ab P ∪ rest.toFinset = P ∪ (ab :: rest).toFinset := by
      rw [List.toFinset_cons]
      ext x
      simp only [Finset.mem_union, Finset.mem_insert]
      tauto
    rw [hres.1, hres.2, hun]
    exact ⟨rfl, rfl⟩

lemma initCollisions_eq_bruteMap {sc : SegCross} (hs : SymmCross sc)
    (pos : Vertex → Point) {l : List Edge} (hnd : l.Nodup) :
    initCollisions sc pos l = bruteMap sc pos l.toFinset := by
  unfold initCollisions
  have hb : (∅ : Finset (Edge × Edge)) = bruteMap sc pos ∅ := by
    rw [bruteMap]
    simp
  rw [hb]
  have := (initFold_closed hs pos l ∅ (by simp) hnd).1
  rwa [Finset.empty_union] at this

lemma initTracker_inv {sc : SegCross} (hs : SymmCross sc) (n : Nat)
    {l : List Edge} (hnd : l.Nodup) (pos0 : Vertex → Point) :
    TrackerInv sc (initTracker sc n l pos0) := by
  constructor
  · show initCollisions sc pos0 l = bruteMap sc pos0 l.toFinset
    exact initCollisions_eq_bruteMap hs pos0 hnd
  · rfl

/-! ## The `node2lines` adjacency lists -/

/-- What `updateNode` relies on about `node2lines`: one duplicate-free list
per node, holding exactly the edges incident to that node. -/
def N2lOk (st : Tracker) : Prop :=
  st.n2l.length = st.n ∧
  ∀ j : Nat, ∀ hj : j < st.n2l.length,
    (st.n2l.get ⟨j, hj⟩).Nodup ∧
    ∀ e : Edge, e ∈ st.n2l.get ⟨j, hj⟩ ↔ (e ∈ st.edges ∧ (e.1 = j ∨ e.2 = j))

lemma buildN2l_row_eq_filter (j : Nat) :
    ∀ (l : List Edge), (∀ e ∈ l, e.1 ≠ e.2) →
      (l.flatMap fun e =>
          (if e.1 = j then [e] else []) ++ (if e.2 = j then [e] else [])) =
        l.filter (fun e => decide (e.1 = j ∨ e.2 = j)) := by
  intro l
  induction l with
  | nil => intro _; rfl
  | cons a t ih =>
    intro hp
    have ha := hp a (List.mem_cons_self a t)
    have ht := fun e he => hp e (List.mem_cons_of_mem a he)
    by_cases h1 : a.1 = j <;> by_cases h2 : a.2 = j
    · exact absurd (h1.trans h2.symm) ha
    · simp [h1, h2, ih ht]
    · simp [h1, h2, ih ht]
    · simp [h1, h2, ih ht]

lemma buildN2l_get (n : Nat) (l : List Edge) (hproper : ∀ e ∈ l, e.1 ≠ e.2)
    (j : Nat) (hj : j < (buildN2l n l).length) :
    (buildN2l n l).get ⟨j, hj⟩ =
      l.filter (fun e => decide (e.1 = j ∨ e.2 = j)) := by
  rw [List.get_eq_getElem]
  simp only [buildN2l, List.getElem_map, List.getElem_range]
  exact buildN2l_row_eq_filter j l hproper

lemma initTracker_N2lOk (sc : SegCross) (n : Nat) (l : List Edge)
    (pos0 : Vertex → Point) (hg : GoodEdges n l) :
    N2lOk (initTracker sc n l pos0) := by
  obtain ⟨hnd, hproper, -⟩ := hg
  constructor
  · show (buildN2l n l).length = n
    simp [buildN2l]
  · intro j hj
    have hget := buildN2l_get n l hproper j hj
    constructor
    · show ((buildN2l n l).get ⟨j, hj⟩).Nodup
      rw [hget]
      exact hnd.filter _
    · intro e
      show e ∈ (buildN2l n l).get ⟨j, hj⟩ ↔ e ∈ l.toFinset ∧ (e.1 = j ∨ e.2 = j)
      rw [hget]
      simp only [List.mem_filter, decide_eq_true_eq, List.mem_toFinset]

/-! ## `updateVertex` and whole drag sessions preserve the invariant -/

lemma updateVertex_ok {sc : SegCross} (hs : SymmCross sc) {st : Tracker}
    {idx : Int} {p : Point} {st' : Tracker} {a b : Nat}
    (hInv : TrackerInv sc st) (hN : N2lOk st)
    (h : updateVertex sc st idx p = .ok (st', a, b)) :
    TrackerInv sc st' ∧ st'.edges = st.edges ∧ st'.n2l = st.n2l ∧
      st'.n = st.n ∧ a = st'.untangled.card ∧ b = st'.edges.card := by
  classical
  unfold updateVertex at h
  cases hpg : pyGet st.n2l idx with
  | none => rw [hpg] at h; cases h
  | some lst =>
    rw [hpg] at h
    dsimp only at h
    rw [Except.ok.injEq, Prod.mk.injEq, Prod.mk.injEq] at h
    obtain ⟨hst, ha, hb⟩ := h
    -- identify the index of the accessed adjacency list
    have hidx : ∃ j : Nat, ∃ hj : j < st.n2l.length,
        lst = st.n2l.get ⟨j, hj⟩ ∧
        (if 0 ≤ idx ∧ idx < (st.n : Int) then
            ({ st with pos := Function.update st.pos idx.toNat p } : Tracker)
          else st) =
          (if 0 ≤ idx then
            ({ st with pos := Function.update st.pos j p } : Tracker)
          else st) := by
      unfold pyGet at hpg
      by_cases h0 : 0 ≤ idx
      · rw [if_pos h0] at hpg
        have hlt : idx.toNat < st.n2l.length := by
          by_contra hge
          rw [List.getElem?_eq_none (Nat.le_of_not_lt hge)] at hpg
          cases hpg
        refine ⟨idx.toNat, hlt, ?_, ?_⟩
        · rw [List.getElem?_eq_getElem hlt] at hpg
          rw [List.get_eq_getElem]
          exact (Option.some.injEq _ _ ▸ hpg).symm
        · have hcond : 0 ≤ idx ∧ idx < (st.n : Int) := by
            refine ⟨h0, ?_⟩
            have := hlt
            rw [hN.1] at this
            omega
          rw [if_pos hcond, if_pos h0]
      · rw [if_neg h0] at hpg
        by_cases h1 : 0 ≤ idx + (st.n2l.length : Int)
        · rw [if_pos h1] at hpg
          have hlt : (idx + (st.n2l.length : Int)).toNat < st.n2l.length := by
            by_contra hge
            rw [List.getElem?_eq_none (Nat.le_of_not_lt hge)] at hpg
            cases hpg
          refine ⟨(idx + (st.n2l.length : Int)).toNat, hlt, ?_, ?_⟩
          · rw [List.getElem?_eq_getElem hlt] at hpg
            rw [List.get_eq_getElem]
            exact (Option.some.injEq _ _ ▸ hpg).symm
          · have hcond : ¬(0 ≤ idx ∧ idx < (st.n : Int)) := by
              rintro ⟨hc, -⟩
              exact h0 hc
            rw [if_neg hcond, if_neg h0]
        · rw [if_neg h1] at hpg
          cases hpg
    obtain ⟨j, hj, hlst, hif⟩ := hidx
    -- the state after the position write, before the loop
    set st0 := (if 0 ≤ idx ∧ idx < (st.n : Int) then
        ({ st with pos := Function.update st.pos idx.toNat p } : Tracker)
      else st) with hst0
    have hst0E : st0.edges = st.edges := by
      rw [hst0]; split <;> rfl
    have hst0C : st0.coll = st.coll := by
      rw [hst0]; split <;> rfl
    have hst0U : st0.untangled = st.untangled := by
      rw [hst0]; split <;> rfl
    have hst0n : st0.n = st.n := by
      rw [hst0]; split <;> rfl
    have hst0n2l : st0.n2l = st.n2l := by
      rw [hst0]; split <;> rfl
    have hposagree : ∀ w : Vertex, w ≠ j → st.pos w = st0.pos w := by
      intro w hw
      rw [hif]
      split
      · show st.pos w = Function.update st.pos j p w
        rw [Function.update_noteq hw]
      · rfl
    -- facts about the accessed adjacency list
    have hrow := (hN.2 j hj)
    have hlmem : ∀ e ∈ lst, (e.1 = j ∨ e.2 = j) ∧ e ∈ st.edges := by
      intro e he
      rw [hlst] at he
      exact ⟨((hrow.2 e).mp he).2, ((hrow.2 e).mp he).1⟩
    have hlnd : lst.Nodup := by
      rw [hlst]
      exact hrow.1
    have hcov : ∀ e ∈ st.edges, (e.1 = j ∨ e.2 = j) → e ∈ lst.toFinset := by
      intro e he hj'
      rw [List.mem_toFinset, hlst]
      exact (hrow.2 e).mpr ⟨he, hj'⟩
    have hC0 : st0.coll = mixedMap sc st.pos st0.pos lst.toFinset st.edges := by
      rw [hst0C, hInv.1]
      exact bruteMap_eq_mixedMap hposagree
        (fun e he hi => hcov e he hi)
    have hunt0 : st0.untangled = st.edges \ keys st0.coll := by
      rw [hst0U, hst0C, hInv.2]
    have hres := @foldl_mixed sc hs j st.pos st0.pos st.edges
      lst st0 hlnd hlmem hst0E rfl hC0 hunt0
    subst hst
    refine ⟨⟨?_, ?_⟩, hres.2.2.1, ?_, ?_, ha.symm, hb.symm⟩
    · rw [hres.1, hres.2.2.2.1, hres.2.2.1]
    · rw [hres.2.1, hres.2.2.1]
    · rw [hres.2.2.2.2.1, hst0n2l]
    · rw [hres.2.2.2.2.2, hst0n]

lemma N2lOk_congr {st st' : Tracker} (hE : st'.edges = st.edges)
    (hL : st'.n2l = st.n2l) (hn : st'.n = st.n) (h : N2lOk st) : N2lOk st' := by
  constructor
  · rw [hL, hn]
    exact h.1
  · intro j hj
    have hj' : j < st.n2l.length := by rwa [hL] at hj
    have hge : st'.n2l.get ⟨j, hj⟩ = st.n2l.get ⟨j, hj'⟩ := by
      have := List.get_of_eq hL ⟨j, hj⟩
      exact this
    rw [hge, hE]
    exact ⟨(h.2 j hj').1, fun e => (h.2 j hj').2 e⟩

/-- Master invariant: any drag session starting from a state satisfying the
tracker invariant keeps satisfying it, edge set and adjacency unchanged. -/
lemma applyUpdates_inv {sc : SegCross} (hs : SymmCross sc) :
    ∀ (us : List (Int × Point)) (st : Tracker),
      TrackerInv sc st → N2lOk st →
      (TrackerInv sc (applyUpdates sc st us) ∧
        (applyUpdates sc st us).edges = st.edges ∧
        (applyUpdates sc st us).n2l = st.n2l ∧
        (applyUpdates sc st us).n = st.n) := by
  intro us
  induction us with
  | nil =>
    intro st hInv hN
    exact ⟨hInv, rfl, rfl, rfl⟩
  | cons u rest ih =>
    intro st hInv hN
    obtain ⟨i, p⟩ := u
    show _ ∧ (applyUpdates sc st ((i, p) :: rest)).edges = st.edges ∧ _ ∧ _
    unfold applyUpdates
    cases hres : updateVertex sc st i p with
    | error e =>
      exact ih st hInv hN
    | ok r =>
      obtain ⟨st1, a, b⟩ := r
      obtain ⟨hInv1, hE1, hL1, hn1, -, -⟩ := updateVertex_ok hs hInv hN hres
      have hN1 : N2lOk st1 := N2lOk_congr hE1 hL1 hn1 hN
      obtain ⟨hInv2, hE2, hL2, hn2⟩ := ih st1 hInv1 hN1
      exact ⟨hInv2, hE2.trans hE1, hL2.trans hL1, hn2.trans hn1⟩

/-! ## Claim theorems for the crossing tracker -/

/-- C1: for any reachable tracker state — an `initTracker` over a fixed edge
set and positions followed by any sequence of `updateVertex` calls — the
incrementally maintained collision map equals the map produced by re-running
the brute-force pairwise `Scene.init` scan from scratch on the final
positions, with the same `segmentsCross` primitive. -/
theorem incremental_matches_bruteforce {sc : SegCross} (hs : SymmCross sc)
    (n : Nat) (l : List Edge) (hg : GoodEdges n l) (pos0 : Vertex → Point)
    (us : List (Int × Point)) :
    (applyUpdates sc (initTracker sc n l pos0) us).coll =
      initCollisions sc (applyUpdates sc (initTracker sc n l pos0) us).pos l := by
  obtain ⟨hInv, hE, -, -⟩ := applyUpdates_inv hs us (initTracker sc n l pos0)
    (initTracker_inv hs n hg.1 pos0) (initTracker_N2lOk sc n l pos0 hg)
  rw [hInv.1, hE, initCollisions_eq_bruteMap hs _ hg.1]
  rfl

/-- C1 witness: a concrete three-vertex instance with one drag. -/
theorem incremental_matches_bruteforce_witness :
    (applyUpdates (fun _ _ _ _ => false)
        (initTracker (fun _ _ _ _ => false) 3 [(0, 1), (1, 2), (0, 2)]
          (fun _ => (0, 0))) [((0 : Int), ((5, 5) : Point))]).coll =
      initCollisions (fun _ _ _ _ => false)
        (applyUpdates (fun _ _ _ _ => false)
          (initTracker (fun _ _ _ _ => false) 3 [(0, 1), (1, 2), (0, 2)]
            (fun _ => (0, 0))) [((0 : Int), ((5, 5) : Point))]).pos
        [(0, 1), (1, 2), (0, 2)] :=
  @incremental_matches_bruteforce (fun _ _ _ _ => false)
    (fun _ _ _ _ => rfl) 3 _ (by unfold GoodEdges; decide)
    (fun _ => (0, 0)) [((0 : Int), ((5, 5) : Point))]

/-- C2: after `Scene.init` and after every `updateNode` call, `untangled`
and the key set of the collision map partition the edge set: they are
disjoint and together cover every edge. -/
theorem untangled_keys_partition {sc : SegCross} (hs : SymmCross sc)
    (n : Nat) (l : List Edge) (hg : GoodEdges n l) (pos0 : Vertex → Point)
    (us : List (Int × Point)) :
    (applyUpdates sc (initTracker sc n l pos0) us).untangled ∩
        keys (applyUpdates sc (initTracker sc n l pos0) us).coll = ∅ ∧
      (applyUpdates sc (initTracker sc n l pos0) us).edges ⊆
        (applyUpdates sc (initTracker sc n l pos0) us).untangled ∪
          keys (applyUpdates sc (initTracker sc n l pos0) us).coll := by
  obtain ⟨hInv, -, -, -⟩ := applyUpdates_inv hs us (initTracker sc n l pos0)
    (initTracker_inv hs n hg.1 pos0) (initTracker_N2lOk sc n l pos0 hg)
  constructor
  · rw [hInv.2]
    exact Finset.sdiff_inter_self _ _
  · intro x hx
    rw [hInv.2]
    by_cases hk : x ∈ keys (applyUpdates sc (initTracker sc n l pos0) us).coll
    · exact Finset.mem_union_right _ hk
    · exact Finset.mem_union_left _ (Finset.mem_sdiff.mpr ⟨hx, hk⟩)

/-- C2 witness. -/
theorem untangled_keys_partition_witness :
    (applyUpdates (fun _ _ _ _ => false)
        (initTracker (fun _ _ _ _ => false) 3 [(0, 1), (1, 2), (0, 2)]
          (fun _ => (0, 0))) [((1 : Int), ((2, 3) : Point))]).untangled ∩
        keys (applyUpdates (fun _ _ _ _ => false)
          (initTracker (fun _ _ _ _ => false) 3 [(0, 1), (1, 2), (0, 2)]
            (fun _ => (0, 0))) [((1 : Int), ((2, 3) : Point))]).coll = ∅ ∧
      (applyUpdates (fun _ _ _ _ => false)
          (initTracker (fun _ _ _ _ => false) 3 [(0, 1), (1, 2), (0, 2)]
            (fun _ => (0, 0))) [((1 : Int), ((2, 3) : Point))]).edges ⊆
        (applyUpdates (fun _ _ _ _ => false)
            (initTracker (fun _ _ _ _ => false) 3 [(0, 1), (1, 2), (0, 2)]
              (fun _ => (0, 0))) [((1 : Int), ((2, 3) : Point))]).untangled ∪
          keys (applyUpdates (fun _ _ _ _ => false)
            (initTracker (fun _ _ _ _ => false) 3 [(0, 1), (1, 2), (0, 2)]
              (fun _ => (0, 0))) [((1 : Int), ((2, 3) : Point))]).coll :=
  @untangled_keys_partition (fun _ _ _ _ => false)
    (fun _ _ _ _ => rfl) 3 _ (by unfold GoodEdges; decide)
    (fun _ => (0, 0)) [((1 : Int), ((2, 3) : Point))]

/-- C3: in every reachable tracker state the collision map is symmetric,
irreflexive, and never records a pair of edges sharing an endpoint. -/
theorem collisionMap_wellformed {sc : SegCross} (hs : SymmCross sc)
    (n : Nat) (l : List Edge) (hg : GoodEdges n l) (pos0 : Vertex → Point)
    (us : List (Int × Point)) (e f : Edge) :
    ((e, f) ∈ (applyUpdates sc (initTracker sc n l pos0) us).coll ↔
      (f, e) ∈ (applyUpdates sc (initTracker sc n l pos0) us).coll) ∧
    (e, e) ∉ (applyUpdates sc (initTracker sc n l pos0) us).coll ∧
    (SharesEndpoint e f →
      (e, f) ∉ (applyUpdates sc (initTracker sc n l pos0) us).coll) := by
  obtain ⟨hInv, -, -, -⟩ := applyUpdates_inv hs us (initTracker sc n l pos0)
    (initTracker_inv hs n hg.1 pos0) (initTracker_N2lOk sc n l pos0 hg)
  rw [hInv.1]
  refine ⟨?_, ?_, ?_⟩
  · rw [mem_bruteMap, mem_bruteMap,
      collides_symm hs (applyUpdates sc (initTracker sc n l pos0) us).pos e f]
    tauto
  · rw [mem_bruteMap]
    rintro ⟨-, -, hc⟩
    rw [collides_self] at hc
    cases hc
  · intro hsh
    rw [mem_bruteMap]
    rintro ⟨-, -, hc⟩
    rw [collides_of_shares hsh] at hc
    cases hc

/-- C3 witness. -/
theorem collisionMap_wellformed_witness :
    (((0, 1), (1, 2)) ∈ (applyUpdates (fun _ _ _ _ => false)
        (initTracker (fun _ _ _ _ => false) 3 [(0, 1), (1, 2), (0, 2)]
          (fun _ => (0, 0))) []).coll ↔
      ((1, 2), (0, 1)) ∈ (applyUpdates (fun _ _ _ _ => false)
        (initTracker (fun _ _ _ _ => false) 3 [(0, 1), (1, 2), (0, 2)]
          (fun _ => (0, 0))) []).coll) ∧
    ((0, 1), (0, 1)) ∉ (applyUpdates (fun _ _ _ _ => false)
      (initTracker (fun _ _ _ _ => false) 3 [(0, 1), (1, 2), (0, 2)]
        (fun _ => (0, 0))) []).coll ∧
    (SharesEndpoint (0, 1) (1, 2) →
      ((0, 1), (1, 2)) ∉ (applyUpdates (fun _ _ _ _ => false)
        (initTracker (fun _ _ _ _ => false) 3 [(0, 1), (1, 2), (0, 2)]
          (fun _ => (0, 0))) []).coll) :=
  @collisionMap_wellformed (fun _ _ _ _ => false)
    (fun _ _ _ _ => rfl) 3 _ (by unfold GoodEdges; decide)
    (fun _ => (0, 0)) [] (0, 1) (1, 2)

/-- C5: a successful `updateNode` call on a valid vertex of a reachable state
reports `(len(untangled), len(lines))`; by the partition invariant this pair
is `(|untangled|, |untangled| + |keys(collisionMap)|)` evaluated after the
update, and the second component is the total edge count. -/
theorem updateVertex_progress_counts {sc : SegCross} (hs : SymmCross sc)
    (n : Nat) (l : List Edge) (hg : GoodEdges n l) (pos0 : Vertex → Point)
    (us : List (Int × Point)) (idx : Int) (p : Point) (st' : Tracker)
    (cnt tot : Nat) (_hvalid : 0 ≤ idx ∧ idx < (n : Int))
    (h : updateVertex sc (applyUpdates sc (initTracker sc n l pos0) us) idx p =
        .ok (st', cnt, tot)) :
    cnt = st'.untangled.card ∧
    tot = st'.untangled.card + (keys st'.coll).card ∧
    tot = st'.edges.card := by
  obtain ⟨hInv, hE, hL, hn⟩ := applyUpdates_inv hs us (initTracker sc n l pos0)
    (initTracker_inv hs n hg.1 pos0) (initTracker_N2lOk sc n l pos0 hg)
  have hN := N2lOk_congr hE hL hn (initTracker_N2lOk sc n l pos0 hg)
  obtain ⟨hInv', hE', -, -, ha, hb⟩ := updateVertex_ok hs hInv hN h
  refine ⟨ha, ?_, hb⟩
  have hks : keys st'.coll ⊆ st'.edges := by
    intro x hx
    obtain ⟨y, hy⟩ := mem_keys.mp hx
    rw [hInv'.1] at hy
    exact (mem_bruteMap.mp hy).1
  rw [hb, hInv'.2, Finset.card_sdiff hks]
  have := Finset.card_le_card hks
  omega

/-- C5 witness: a tracked scene with no edges and a drag of vertex 0. -/
theorem updateVertex_progress_counts_witness :
    (0 : Nat) = ({ initTracker (fun _ _ _ _ => false) 1 [] (fun _ => (0, 0)) with
        pos := Function.update (fun _ => ((0, 0) : Point)) 0 (1, 1) } :
          Tracker).untangled.card ∧
    (0 : Nat) = ({ initTracker (fun _ _ _ _ => false) 1 [] (fun _ => (0, 0)) with
        pos := Function.update (fun _ => ((0, 0) : Point)) 0 (1, 1) } :
          Tracker).untangled.card +
      (keys ({ initTracker (fun _ _ _ _ => false) 1 [] (fun _ => (0, 0)) with
        pos := Function.update (fun _ => ((0, 0) : Point)) 0 (1, 1) } :
          Tracker).coll).card ∧
    (0 : Nat) = ({ initTracker (fun _ _ _ _ => false) 1 [] (fun _ => (0, 0)) with
        pos := Function.update (fun _ => ((0, 0) : Point)) 0 (1, 1) } :
          Tracker).edges.card :=
  @updateVertex_progress_counts (fun _ _ _ _ => false)
    (fun _ _ _ _ => rfl) 1 [] (by unfold GoodEdges; decide)
    (fun _ => (0, 0)) [] 0 (1, 1) _ 0 0 (by decide) rfl

/-- Truth value of an `Except` outcome, for stating that a call raised. -/
def isOkE {α : Type} (x : Except Unit α) : Bool :=
  match x with
  | .ok _ => true
  | .error _ => false

/-- C7 counterexample: `node2lines[-1]` is valid Python (negative indices
count from the end), so `updateNode` called with vertex index `-1` on a
3-vertex tracker does **not** fail, contradicting the claim that every index
outside `0..N-1` raises `UnknownVertex`. -/
theorem updateVertex_negative_index_no_error :
    isOkE (updateVertex (fun _ _ _ _ => false)
      (initTracker (fun _ _ _ _ => false) 3 [(0, 1), (1, 2), (0, 2)]
        (fun _ => (0, 0))) (-1) (1, 1)) = true := by decide

/-- C7 as amended: an index `≥ N` or `< -N` makes `updateNode` raise
(`IndexError`, before any tracker mutation — the erroring call returns no
state), while an index in `[-N, 0)` is accepted by Python list indexing
(aliasing to `N + idx`) and does not fail. -/
theorem updateVertex_index_contract (sc : SegCross) (st : Tracker) (idx : Int)
    (p : Point) (hlen : st.n2l.length = st.n) :
    ((st.n : Int) ≤ idx ∨ idx + (st.n : Int) < 0 →
      updateVertex sc st idx p = .error ()) ∧
    (-(st.n : Int) ≤ idx → idx < 0 →
      isOkE (updateVertex sc st idx p) = true) := by
  constructor
  · intro h
    unfold updateVertex
    have hnone : pyGet st.n2l idx = none := by
      unfold pyGet
      rcases h with h | h
      · rw [if_pos (by omega)]
        apply List.getElem?_eq_none
        omega
      · rw [if_neg (by omega), if_neg (by omega)]
    rw [hnone]
  · intro h1 h2
    have hsome : ∃ x, pyGet st.n2l idx = some x := by
      unfold pyGet
      rw [if_neg (by omega), if_pos (by omega)]
      have hlt : (idx + (st.n2l.length : Int)).toNat < st.n2l.length := by
        omega
      exact ⟨_, List.getElem?_eq_getElem hlt⟩
    obtain ⟨x, hx⟩ := hsome
    unfold updateVertex
    rw [hx]
    rfl

/-- C7 witness for the amended claim (an out-of-range index raises). -/
theorem updateVertex_index_contract_witness :
    updateVertex (fun _ _ _ _ => false)
      (initTracker (fun _ _ _ _ => false) 3 [(0, 1), (1, 2), (0, 2)]
        (fun _ => (0, 0))) 5 (1, 1) = Except.error () :=
  (updateVertex_index_contract (fun _ _ _ _ => false)
    (initTracker (fun _ _ _ _ => false) 3 [(0, 1), (1, 2), (0, 2)]
      (fun _ => (0, 0))) 5 (1, 1) rfl).1 (by decide)

/-- C10: `checkVictory` signals victory iff the collision dict is empty, and
it leaves the tracker state unchanged (it is a pure query as far as the
tracker state is concerned). -/
theorem checkVictory_pure_iff_empty (st : Tracker) :
    (checkVictory st).1 = st ∧ ((checkVictory st).2 = true ↔ st.coll = ∅) := by
  refine ⟨?_, ?_, ?_⟩
  · unfold checkVictory
    split <;> rfl
  · intro h2
    unfold checkVictory at h2
    split at h2
    · cases h2
    · rename_i h
      push_neg at h
      exact keys_eq_empty_iff.mp (Finset.card_eq_zero.mp h)
  · intro h2
    unfold checkVictory
    rw [if_neg ?_]
    rw [h2]
    simp [keys]

/-! ## Generator invariants -/

lemma degreeIn_mono {E F : Finset Edge} (h : E ⊆ F) (v : Nat) :
    degreeIn E v ≤ degreeIn F v :=
  Finset.card_le_card (Finset.filter_subset_filter _ h)

lemma Reach_mono {E F : Finset Edge} (h : E ⊆ F) {a b : Nat} :
    Reach E a b → Reach F a b := by
  apply Relation.ReflTransGen.mono
  intro x y hxy
  rcases hxy with h1 | h1
  · exact Or.inl (h h1)
  · exact Or.inr (h h1)

/-- `GInv` only depends on the boundary-permanent union, the vertex counter
and the limit. -/
lemma GInv_congr {st st' : GenState}
    (hU : st'.outside ∪ st'.edges = st.outside ∪ st.edges)
    (hn : st'.nodeIdx = st.nodeIdx) (hl : st'.limit = st.limit)
    (h : GInv st) : GInv st' := by
  obtain ⟨h1, h2, h3, h4⟩ := h
  refine ⟨?_, ?_, ?_, ?_⟩
  · intro e he
    rw [hU] at he
    rw [hn]
    exact h1 e he
  · rw [hn, hl]
    exact h2
  · intro v hv
    rw [hn] at hv
    rw [hU]
    exact h3 v hv
  · intro v hv
    rw [hn] at hv
    rw [hU]
    exact h4 v hv

lemma walk_union (st : GenState) (xy : Edge) (hxy : xy ∈ st.outside) :
    st.outside.erase xy ∪ insert xy st.edges = st.outside ∪ st.edges := by
  ext x
  simp only [Finset.mem_union, Finset.mem_erase, Finset.mem_insert]
  constructor
  · rintro (⟨hne, ho⟩ | (rfl | he))
    · exact Or.inl ho
    · exact Or.inl hxy
    · exact Or.inr he
  · rintro (ho | he)
    · by_cases hx : x = xy
      · exact Or.inr (Or.inl hx)
      · exact Or.inl ⟨hx, ho⟩
    · exact Or.inr (Or.inr he)

lemma fan_union (st : GenState) (ab : Edge) (hab : ab ∈ st.outside)
    (base pivot : Nat) :
    insert (pivot, st.nodeIdx) (insert (base, st.nodeIdx) (st.outside.erase ab)) ∪
        insert ab st.edges =
      insert (pivot, st.nodeIdx)
        (insert (base, st.nodeIdx) (st.outside ∪ st.edges)) := by
  ext x
  simp only [Finset.mem_union, Finset.mem_insert, Finset.mem_erase]
  constructor
  · rintro ((h | h | ⟨hne, ho⟩) | (h | h))
    · exact Or.inl h
    · exact Or.inr (Or.inl h)
    · exact Or.inr (Or.inr (Or.inl ho))
    · exact Or.inr (Or.inr (Or.inl (h ▸ hab)))
    · exact Or.inr (Or.inr (Or.inr h))
  · rintro (h | h | ho | he)
    · exact Or.inl (Or.inl h)
    · exact Or.inl (Or.inr (Or.inl h))
    · by_cases hx : x = ab
      · exact Or.inr (Or.inl hx)
      · exact Or.inl (Or.inr (Or.inr ⟨hx, ho⟩))
    · exact Or.inr (Or.inr he)

/-- The fan loop of `addLines` preserves the generator invariant, keeps the
limit, only grows the edge union, and never pushes `node_idx` past the
limit. -/
lemma fanLoop_inv : ∀ (fuel : Nat) (st : GenState) (base pivot : Nat)
    (ab : Edge) (draws : List Draw) (st' : GenState) (d' : List Draw),
    fanLoop fuel st base pivot ab draws = some (st', d') →
    GInv st → ab ∈ st.outside → base < st.nodeIdx → pivot < st.nodeIdx →
    base ≠ pivot → st.nodeIdx < st.limit →
    (GInv st' ∧ st'.limit = st.limit ∧
      st.outside ∪ st.edges ⊆ st'.outside ∪ st'.edges ∧
      st.nodeIdx ≤ st'.nodeIdx) := by
  intro fuel
  induction fuel with
  | zero =>
    intro st base pivot ab draws st' d' h
    cases h
  | succ fuel ih =>
    intro st base pivot ab draws st' d' h hInv hab hb hp hbp hlim
    cases draws with
    | nil => simp [fanLoop] at h
    | cons dr rest =>
      cases dr with
      | edge e => simp [fanLoop] at h
      | side s => simp [fanLoop] at h
      | scanPick r => simp [fanLoop] at h
      | coin b =>
        rw [fanLoop] at h
        dsimp only at h
        obtain ⟨h1, h2, h3, h4⟩ := hInv
        have hU1 : (insert (pivot, st.nodeIdx)
              (insert (base, st.nodeIdx) (st.outside.erase ab))) ∪
              insert ab st.edges =
            insert (pivot, st.nodeIdx)
              (insert (base, st.nodeIdx) (st.outside ∪ st.edges)) :=
          fan_union st ab hab base pivot
        have hsub : st.outside ∪ st.edges ⊆
            insert (pivot, st.nodeIdx)
              (insert (base, st.nodeIdx) (st.outside ∪ st.edges)) := by
          intro x hx
          exact Finset.mem_insert_of_mem (Finset.mem_insert_of_mem hx)
        have hmr := le_max_right 3 st.limit
        have hInv1 : GInv
            { st with
              outside := insert (pivot, st.nodeIdx)
                (insert (base, st.nodeIdx) (st.outside.erase ab))
              edges := insert ab st.edges
              nodeIdx := st.nodeIdx + 1 } := by
          refine ⟨?_, ?_, ?_, ?_⟩ <;> dsimp only
          · intro e he
            rw [hU1] at he
            rcases Finset.mem_insert.mp he with rfl | he
            · exact ⟨hp, Nat.lt_succ_self _⟩
            rcases Finset.mem_insert.mp he with rfl | he
            · exact ⟨hb, Nat.lt_succ_self _⟩
            · obtain ⟨ha, hbd⟩ := h1 e he
              exact ⟨ha, Nat.lt_succ_of_lt hbd⟩
          · constructor
            · omega
            · omega
          · intro v hv
            rw [hU1]
            rcases Nat.lt_succ_iff_lt_or_eq.mp hv with hv' | hveq
            · exact le_trans (h3 v hv') (degreeIn_mono hsub v)
            · subst hveq
              have hmem1 : ((base, st.nodeIdx) : Edge) ∈ insert (pivot, st.nodeIdx)
                  (insert (base, st.nodeIdx) (st.outside ∪ st.edges)) := by
                simp
              have hmem2 : ((pivot, st.nodeIdx) : Edge) ∈ insert (pivot, st.nodeIdx)
                  (insert (base, st.nodeIdx) (st.outside ∪ st.edges)) := by
                simp
              have hne : ((base, st.nodeIdx) : Edge) ≠ (pivot, st.nodeIdx) := by
                intro hc
                exact hbp (congrArg Prod.fst hc)
              have h21 : 1 < degreeIn (insert (pivot, st.nodeIdx)
                  (insert (base, st.nodeIdx) (st.outside ∪ st.edges))) st.nodeIdx := by
                apply Finset.one_lt_card.mpr
                refine ⟨(base, st.nodeIdx), ?_, (pivot, st.nodeIdx), ?_, hne⟩
                · exact Finset.mem_filter.mpr ⟨hmem1, Or.inr rfl⟩
                · exact Finset.mem_filter.mpr ⟨hmem2, Or.inr rfl⟩
              omega
          · intro v hv
            rw [hU1]
            rcases Nat.lt_succ_iff_lt_or_eq.mp hv with hv' | hveq
            · exact Reach_mono hsub (h4 v hv')
            · subst hveq
              have hbase : Reach (insert (pivot, st.nodeIdx)
                  (insert (base, st.nodeIdx) (st.outside ∪ st.edges))) 0 base :=
                Reach_mono hsub (h4 base hb)
              exact Relation.ReflTransGen.tail hbase (Or.inl (by simp))
        by_cases hcond : b = true ∨ st.limit ≤ st.nodeIdx + 1
        · rw [if_pos hcond] at h
          rw [Option.some.injEq, Prod.mk.injEq] at h
          obtain ⟨hst, -⟩ := h
          rw [← hst]
          refine ⟨hInv1, rfl, ?_, Nat.le_succ _⟩
          show st.outside ∪ st.edges ⊆ _
          rw [show (insert (pivot, st.nodeIdx)
              (insert (base, st.nodeIdx) (st.outside.erase ab))) ∪
              insert ab st.edges =
            insert (pivot, st.nodeIdx)
              (insert (base, st.nodeIdx) (st.outside ∪ st.edges)) from hU1]
          exact hsub
        · rw [if_neg hcond] at h
          push_neg at hcond
          have hres := ih _ st.nodeIdx pivot (pivot, st.nodeIdx)
            rest st' d' h hInv1 (by simp) (Nat.lt_succ_self _)
            (Nat.lt_succ_of_lt hp) (by omega) (by dsimp only; omega)
          refine ⟨hres.1, hres.2.1, ?_, le_trans (Nat.le_succ _) hres.2.2.2⟩
          refine le_trans ?_ hres.2.2.1
          show st.outside ∪ st.edges ⊆ _
          rw [show (insert (pivot, st.nodeIdx)
              (insert (base, st.nodeIdx) (st.outside.erase ab))) ∪
              insert ab st.edges =
            insert (pivot, st.nodeIdx)
              (insert (base, st.nodeIdx) (st.outside ∪ st.edges)) from hU1]
          exact hsub
/-- `addLines` (including its soft degree-cap retries) preserves the
generator invariant. -/
lemma addLines_inv : ∀ (fuel : Nat) (st : GenState) (draws : List Draw)
    (st' : GenState) (d' : List Draw),
    addLines fuel st draws = some (st', d') → GInv st →
    st.nodeIdx < st.limit →
    (GInv st' ∧ st'.limit = st.limit ∧
      st.outside ∪ st.edges ⊆ st'.outside ∪ st'.edges ∧
      st.nodeIdx ≤ st'.nodeIdx) := by
  intro fuel
  induction fuel with
  | zero =>
    intro st draws st' d' h
    cases h
  | succ fuel ih =>
    intro st draws st' d' h hInv hlim
    cases draws with
    | nil => simp [addLines] at h
    | cons d1 t1 =>
      cases d1 with
      | side s => simp [addLines] at h
      | coin c => simp [addLines] at h
      | scanPick r => simp [addLines] at h
      | edge ab =>
        cases t1 with
        | nil => simp [addLines] at h
        | cons d2 t2 =>
          cases d2 with
          | edge e2 => simp [addLines] at h
          | coin c2 => simp [addLines] at h
          | scanPick r2 => simp [addLines] at h
          | side s =>
            cases t2 with
            | nil => simp [addLines] at h
            | cons d3 t3 =>
              cases d3 with
              | edge e3 => simp [addLines] at h
              | side s3 => simp [addLines] at h
              | scanPick r3 => simp [addLines] at h
              | coin r =>
                cases s with
                | true =>
                  rw [addLines] at h
                  dsimp only at h
                  simp only [eq_self_iff_true, if_true] at h
                  by_cases hout : ab ∈ st.outside
                  · rw [if_pos hout] at h
                    obtain ⟨hlt, hbd⟩ := hInv.1 ab (Finset.mem_union_left _ hout)
                    by_cases hretry : 2 < (Finset.filter
                        (fun xy => xy.1 = ab.1 ∨ xy.2 = ab.1) st.edges).card ∧
                        r = true
                    · rw [if_pos hretry] at h
                      exact ih st t3 st' d' h hInv hlim
                    · rw [if_neg hretry] at h
                      have hx1 : ab.1 + ab.2 - ab.1 < st.nodeIdx := by
                        rw [Nat.add_sub_cancel_left]
                        exact hbd
                      have hx2 : ab.1 < st.nodeIdx := lt_trans hlt hbd
                      have hx3 : ab.1 + ab.2 - ab.1 ≠ ab.1 := by
                        rw [Nat.add_sub_cancel_left]
                        exact Nat.ne_of_gt hlt
                      exact fanLoop_inv (fuel + 1) st (ab.1 + ab.2 - ab.1) ab.1
                        ab t3 st' d' h hInv hout hx1 hx2 hx3 hlim
                  · rw [if_neg hout] at h
                    cases h
                | false =>
                  rw [addLines] at h
                  dsimp only at h
                  simp only [Bool.false_eq_true, if_false] at h
                  by_cases hout : ab ∈ st.outside
                  · rw [if_pos hout] at h
                    obtain ⟨hlt, hbd⟩ := hInv.1 ab (Finset.mem_union_left _ hout)
                    by_cases hretry : 2 < (Finset.filter
                        (fun xy => xy.1 = ab.2 ∨ xy.2 = ab.2) st.edges).card ∧
                        r = true
                    · rw [if_pos hretry] at h
                      exact ih st t3 st' d' h hInv hlim
                    · rw [if_neg hretry] at h
                      have hx1 : ab.1 + ab.2 - ab.2 < st.nodeIdx := by
                        rw [Nat.add_sub_cancel]
                        exact lt_trans hlt hbd
                      have hx2 : ab.2 < st.nodeIdx := hbd
                      have hx3 : ab.1 + ab.2 - ab.2 ≠ ab.2 := by
                        rw [Nat.add_sub_cancel]
                        exact Nat.ne_of_lt hlt
                      exact fanLoop_inv (fuel + 1) st (ab.1 + ab.2 - ab.2) ab.2
                        ab t3 st' d' h hInv hout hx1 hx2 hx3 hlim
                  · rw [if_neg hout] at h
                    cases h

/-- `removeLines` / its boundary walk preserve the generator invariant, the
vertex counter and the limit, and only grow the boundary-permanent union. -/
lemma removeWalk_inv : ∀ fuel : Nat,
    (∀ (st : GenState) (draws : List Draw) (st' : GenState) (d' : List Draw),
      removeLines fuel st draws = some (st', d') → GInv st →
      (GInv st' ∧ st'.limit = st.limit ∧ st'.nodeIdx = st.nodeIdx ∧
        st.outside ∪ st.edges ⊆ st'.outside ∪ st'.edges)) ∧
    (∀ (st : GenState) (ep : Edge) (draws : List Draw) (st' : GenState)
        (d' : List Draw),
      walkLoop fuel st ep draws = some (st', d') → GInv st →
      ep.1 < ep.2 → ep.2 < st.nodeIdx →
      (GInv st' ∧ st'.limit = st.limit ∧ st'.nodeIdx = st.nodeIdx ∧
        st.outside ∪ st.edges ⊆ st'.outside ∪ st'.edges)) := by
  intro fuel
  induction fuel with
  | zero =>
    constructor
    · intro st draws st' d' h
      simp [removeLines] at h
    · intro st ep draws st' d' h
      simp [walkLoop] at h
  | succ fuel ih =>
    obtain ⟨ihr, ihw⟩ := ih
    constructor
    · intro st draws st' d' h hInv
      cases draws with
      | nil => simp [removeLines] at h
      | cons d1 rest =>
        cases d1 with
        | side s => simp [removeLines] at h
        | coin c => simp [removeLines] at h
        | scanPick r => simp [removeLines] at h
        | edge ab =>
          rw [removeLines] at h
          by_cases hout : ab ∈ st.outside
          · rw [if_pos hout] at h
            obtain ⟨hlt, hbd⟩ := hInv.1 ab (Finset.mem_union_left _ hout)
            have hU : st.outside.erase ab ∪ insert ab st.edges =
                st.outside ∪ st.edges := walk_union st ab hout
            have hInv1 : GInv { st with outside := st.outside.erase ab,
                                        edges := insert ab st.edges } :=
              GInv_congr hU rfl rfl hInv
            have hres := ihw _ ab rest st' d' h hInv1 hlt hbd
            refine ⟨hres.1, hres.2.1, hres.2.2.1, ?_⟩
            intro x hx
            apply hres.2.2.2
            show x ∈ st.outside.erase ab ∪ insert ab st.edges
            rw [hU]
            exact hx
          · rw [if_neg hout] at h
            cases h
    · intro st ep draws st' d' h hInv hep1 hep2
      cases draws with
      | nil => simp [walkLoop] at h
      | cons d1 rest =>
        cases d1 with
        | side s => simp [walkLoop] at h
        | coin c => simp [walkLoop] at h
        | edge e => simp [walkLoop] at h
        | scanPick r =>
          cases r with
          | none =>
            rw [walkLoop] at h
            by_cases hmem : ep ∈ st.outside
            · rw [if_pos hmem] at h
              exact ihr st rest st' d' h hInv
            · rw [if_neg hmem] at h
              cases h
          | some xy =>
            rw [walkLoop] at h
            by_cases hvalid : xy ∈ st.outside ∧ xy ≠ ep ∧
                (xy.1 = ep.1 ∨ xy.1 = ep.2 ∨ xy.2 = ep.1 ∨ xy.2 = ep.2)
            · rw [if_pos hvalid] at h
              obtain ⟨hxo, hxne, hxsh⟩ := hvalid
              obtain ⟨hxlt, hxbd⟩ := hInv.1 xy (Finset.mem_union_left _ hxo)
              have hU : st.outside.erase xy ∪ insert xy st.edges =
                  st.outside ∪ st.edges := walk_union st xy hxo
              have hInv2 : GInv { st with outside := st.outside.erase xy,
                                          edges := insert xy st.edges } :=
                GInv_congr hU rfl rfl hInv
              dsimp only at h
              set xymod : Edge := (if xy.1 = ep.1 ∨ xy.1 = ep.2 then
                  (ep.1 + ep.2 - xy.1, xy.2)
                else (ep.1 + ep.2 - xy.2, xy.1)) with hxymod
              set epm : Edge := (min xymod.1 xymod.2, max xymod.1 xymod.2)
                with hepm
              have hxm : xymod.1 < st.nodeIdx ∧ xymod.2 < st.nodeIdx ∧
                  xymod.1 ≠ xymod.2 := by
                rw [hxymod]
                by_cases hc1 : xy.1 = ep.1 ∨ xy.1 = ep.2
                · rw [if_pos hc1]
                  dsimp only
                  rcases hc1 with h1 | h1
                  · refine ⟨by omega, by omega, ?_⟩
                    intro hcontra
                    exact hxne (Prod.ext h1 (by omega))
                  · exact ⟨by omega, by omega, by omega⟩
                · rw [if_neg hc1]
                  dsimp only
                  push_neg at hc1
                  have hc2 : xy.2 = ep.1 ∨ xy.2 = ep.2 := by tauto
                  rcases hc2 with h2 | h2
                  · exact ⟨by omega, by omega, by omega⟩
                  · refine ⟨by omega, by omega, ?_⟩
                    intro hcontra
                    exact hc1.1 (by omega)
              have hem1 : epm.1 < epm.2 := by
                rw [hepm]
                dsimp only
                omega
              have hem2 : epm.2 < st.nodeIdx := by
                rw [hepm]
                dsimp only
                omega
              cases rest with
              | nil => simp at h
              | cons d2 rest2 =>
                cases d2 with
                | side s2 => simp at h
                | edge e2 => simp at h
                | scanPick r2 => simp at h
                | coin b =>
                  cases b with
                  | true =>
                    simp only [eq_self_iff_true, if_true] at h
                    rw [Option.some.injEq, Prod.mk.injEq] at h
                    obtain ⟨hst, -⟩ := h
                    rw [← hst]
                    have hU3 : insert epm (st.outside.erase xy) ∪
                        insert xy st.edges =
                        insert epm (st.outside ∪ st.edges) := by
                      rw [Finset.insert_union, hU]
                    have hsub3 : st.outside ∪ st.edges ⊆
                        insert epm (st.outside ∪ st.edges) :=
                      Finset.subset_insert _ _
                    refine ⟨?_, rfl, rfl, ?_⟩
                    · refine ⟨?_, hInv.2.1, ?_, ?_⟩
                      · intro e he
                        rw [show ({ st with
                            outside := insert epm (st.outside.erase xy),
                            edges := insert xy st.edges } : GenState).outside ∪
                            insert xy st.edges =
                          insert epm (st.outside ∪ st.edges) from hU3] at he
                        rcases Finset.mem_insert.mp he with rfl | he
                        · exact ⟨hem1, hem2⟩
                        · exact hInv.1 e he
                      · intro v hv
                        rw [show ({ st with
                            outside := insert epm (st.outside.erase xy),
                            edges := insert xy st.edges } : GenState).outside ∪
                            insert xy st.edges =
                          insert epm (st.outside ∪ st.edges) from hU3]
                        exact le_trans (hInv.2.2.1 v hv) (degreeIn_mono hsub3 v)
                      · intro v hv
                        rw [show ({ st with
                            outside := insert epm (st.outside.erase xy),
                            edges := insert xy st.edges } : GenState).outside ∪
                            insert xy st.edges =
                          insert epm (st.outside ∪ st.edges) from hU3]
                        exact Reach_mono hsub3 (hInv.2.2.2 v hv)
                    · intro x hx
                      show x ∈ insert epm (st.outside.erase xy) ∪
                        insert xy st.edges
                      rw [hU3]
                      exact hsub3 hx
                  | false =>
                    simp only [Bool.false_eq_true, if_false] at h
                    have hres := ihw _ epm rest2 st' d' h hInv2 hem1 hem2
                    refine ⟨hres.1, hres.2.1, hres.2.2.1, ?_⟩
                    intro x hx
                    apply hres.2.2.2
                    show x ∈ st.outside.erase xy ∪ insert xy st.edges
                    rw [hU]
                    exact hx
            · rw [if_neg hvalid] at h
              cases h

/-- The inner boundary-shrinking loop preserves the generator invariant. -/
lemma shrinkLoop_inv : ∀ (fuel olimit : Nat) (st : GenState)
    (draws : List Draw) (st' : GenState) (d' : List Draw),
    shrinkLoop fuel olimit st draws = some (st', d') → GInv st →
    (GInv st' ∧ st'.limit = st.limit ∧ st'.nodeIdx = st.nodeIdx ∧
      st.outside ∪ st.edges ⊆ st'.outside ∪ st'.edges) := by
  intro fuel
  induction fuel with
  | zero =>
    intro olimit st draws st' d' h
    simp [shrinkLoop] at h
  | succ fuel ih =>
    intro olimit st draws st' d' h hInv
    by_cases hcard : olimit < st.outside.card
    · cases draws with
      | nil => simp [shrinkLoop, hcard] at h
      | cons d1 rest =>
        cases d1 with
        | side s => simp [shrinkLoop, hcard] at h
        | edge e => simp [shrinkLoop, hcard] at h
        | scanPick r => simp [shrinkLoop, hcard] at h
        | coin stop =>
          simp only [shrinkLoop] at h
          rw [if_pos hcard] at h
          cases stop with
          | true =>
            simp only [eq_self_iff_true, if_true] at h
            rw [Option.some.injEq, Prod.mk.injEq] at h
            obtain ⟨hst, -⟩ := h
            rw [← hst]
            exact ⟨hInv, rfl, rfl, Finset.Subset.refl _⟩
          | false =>
            simp only [Bool.false_eq_true, if_false] at h
            cases hrem : removeLines fuel st rest with
            | none =>
              rw [hrem] at h
              simp at h
            | some p =>
              obtain ⟨st1, dd1⟩ := p
              rw [hrem] at h
              dsimp only at h
              obtain ⟨hI1, hl1, hn1, hs1⟩ :=
                (removeWalk_inv fuel).1 st rest st1 dd1 hrem hInv
              obtain ⟨hI2, hl2, hn2, hs2⟩ := ih olimit st1 dd1 st' d' h hI1
              exact ⟨hI2, hl2.trans hl1, hn2.trans hn1, hs1.trans hs2⟩
    · simp only [shrinkLoop] at h
      rw [if_neg hcard] at h
      rw [Option.some.injEq, Prod.mk.injEq] at h
      obtain ⟨hst, -⟩ := h
      rw [← hst]
      exact ⟨hInv, rfl, rfl, Finset.Subset.refl _⟩

/-- The outer grow/shrink loop preserves the invariant and, on normal exit,
has driven the vertex counter up to at least the limit. -/
lemma outerLoop_inv : ∀ (fuel olimit : Nat) (st : GenState)
    (draws : List Draw) (st' : GenState) (d' : List Draw),
    outerLoop fuel olimit st draws = some (st', d') → GInv st →
    (GInv st' ∧ st'.limit = st.limit ∧ st'.limit ≤ st'.nodeIdx ∧
      st.outside ∪ st.edges ⊆ st'.outside ∪ st'.edges) := by
  intro fuel
  induction fuel with
  | zero =>
    intro olimit st draws st' d' h
    simp [outerLoop] at h
  | succ fuel ih =>
    intro olimit st draws st' d' h hInv
    rw [outerLoop] at h
    by_cases hguard : st.nodeIdx < st.limit
    · rw [if_pos hguard] at h
      cases hadd : addLines fuel st draws with
      | none =>
        rw [hadd] at h
        simp at h
      | some p =>
        obtain ⟨st1, d1⟩ := p
        rw [hadd] at h
        dsimp only at h
        cases hshr : shrinkLoop fuel olimit st1 d1 with
        | none =>
          rw [hshr] at h
          simp at h
        | some q =>
          obtain ⟨st2, d2⟩ := q
          rw [hshr] at h
          dsimp only at h
          obtain ⟨hI1, hl1, hs1, -⟩ :=
            addLines_inv fuel st draws st1 d1 hadd hInv hguard
          obtain ⟨hI2, hl2, -, hs2⟩ :=
            shrinkLoop_inv fuel olimit st1 d1 st2 d2 hshr hI1
          obtain ⟨hI3, hl3, hle3, hs3⟩ := ih olimit st2 d2 st' d' h hI2
          exact ⟨hI3, hl3.trans (hl2.trans hl1), hle3,
            hs1.trans (hs2.trans hs3)⟩
    · rw [if_neg hguard] at h
      rw [Option.some.injEq, Prod.mk.injEq] at h
      obtain ⟨hst, -⟩ := h
      rw [← hst]
      exact ⟨hInv, rfl, Nat.le_of_not_lt hguard, Finset.Subset.refl _⟩

/-- The initial triangle satisfies the generator invariant. -/
lemma genInit_inv (limit : Nat) : GInv (genInit limit) := by
  have htri : (genInit limit).outside ∪ (genInit limit).edges =
      ({(0, 1), (1, 2), (0, 2)} : Finset Edge) := by
    show ({(0, 1), (1, 2), (0, 2)} : Finset Edge) ∪ ∅ = _
    exact Finset.union_empty _
  refine ⟨?_, ?_, ?_, ?_⟩
  · intro e he
    rw [htri] at he
    simp only [Finset.mem_insert, Finset.mem_singleton] at he
    show e.1 < e.2 ∧ e.2 < 3
    rcases he with rfl | rfl | rfl <;> exact ⟨by decide, by decide⟩
  · exact ⟨le_refl 3, le_max_left 3 limit⟩
  · intro v hv
    have hv' : v < 3 := hv
    rw [htri]
    interval_cases v <;> decide
  · intro v hv
    have hv' : v < 3 := hv
    rw [htri]
    interval_cases v
    · exact Relation.ReflTransGen.refl
    · exact Relation.ReflTransGen.single (Or.inl (by decide))
    · exact Relation.ReflTransGen.single (Or.inl (by decide))

/-! ## Claim theorems for the generator -/

/-- C4: every successful run of the generator with `nodeLimit ≥ 3` returns a
graph with exactly `nodeLimit` vertices, canonical in-range edges (hence no
duplicate edges in either orientation), connectivity from vertex 0 to every
vertex, and minimum degree 2. -/
theorem generator_validity (limit fuel : Nat) (draws : List Draw)
    (st : GenState) (h3 : 3 ≤ limit)
    (h : generate limit fuel draws = some st) :
    st.nodeIdx = limit ∧
    (∀ e ∈ st.edges, e.1 < e.2 ∧ e.1 < limit ∧ e.2 < limit) ∧
    (∀ a b : Nat, (a, b) ∈ st.edges → (b, a) ∉ st.edges) ∧
    (∀ v, v < limit → Reach st.edges 0 v) ∧
    (∀ v, v < limit → 2 ≤ degreeIn st.edges v) := by
  unfold generate at h
  cases hout : outerLoop fuel (outsideLimitDefault limit) (genInit limit)
      draws with
  | none =>
    rw [hout] at h
    cases h
  | some p =>
    obtain ⟨st0, d0⟩ := p
    rw [hout] at h
    rw [Option.map_some', Option.some.injEq] at h
    obtain ⟨hI, hl, hle, -⟩ := outerLoop_inv fuel (outsideLimitDefault limit)
      (genInit limit) draws st0 d0 hout (genInit_inv limit)
    have hlim0 : st0.limit = limit := hl
    have hmax : max 3 limit = limit := max_eq_right h3
    have hn0 : st0.nodeIdx = limit := by
      have h1 := hI.2.1.2
      rw [hlim0, hmax] at h1
      rw [hlim0] at hle
      omega
    have hE : st.edges = st0.outside ∪ st0.edges := by
      rw [← h]
      exact Finset.union_comm _ _
    have hN : st.nodeIdx = st0.nodeIdx := by rw [← h]
    have hcanon : ∀ e ∈ st.edges, e.1 < e.2 ∧ e.1 < limit ∧ e.2 < limit := by
      intro e he
      rw [hE] at he
      obtain ⟨h1, h2⟩ := hI.1 e he
      rw [hn0] at h2
      exact ⟨h1, by omega, h2⟩
    refine ⟨by rw [hN, hn0], hcanon, ?_, ?_, ?_⟩
    · intro a b hab hba
      have h1 := (hcanon (a, b) hab).1
      have h2 := (hcanon (b, a) hba).1
      dsimp only at h1 h2
      omega
    · intro v hv
      rw [hE]
      exact hI.2.2.2 v (by rw [hn0]; exact hv)
    · intro v hv
      rw [hE]
      exact hI.2.2.1 v (by rw [hn0]; exact hv)

/-- The triangle instance the generator returns at `nodeLimit = 3` with no
draws consumed, used for concrete witnesses. -/
def triGen : GenState :=
  { outside := {(0, 1), (1, 2), (0, 2)}, edges := {(0, 1), (1, 2), (0, 2)},
    nodeIdx := 3, limit := 3 }

/-- C4 witness: the `nodeLimit = 3` run. -/
theorem generator_validity_witness :
    triGen.nodeIdx = 3 ∧
    (∀ e ∈ triGen.edges, e.1 < e.2 ∧ e.1 < 3 ∧ e.2 < 3) ∧
    (∀ a b : Nat, (a, b) ∈ triGen.edges → (b, a) ∉ triGen.edges) ∧
    (∀ v, v < 3 → Reach triGen.edges 0 v) ∧
    (∀ v, v < 3 → 2 ≤ degreeIn triGen.edges v) :=
  generator_validity 3 1 [] triGen (by decide) rfl

/-- C6 counterexample: `RandomGraph2.__init__` performs no `node_limit`
validation; with `node_limit = 2` the growth loop body never runs and a
(triangle) graph **is** produced, refuting "no graph is produced". -/
theorem generate_below_three_returns_graph :
    generate 2 1 [] =
      some { outside := {(0, 1), (1, 2), (0, 2)},
             edges := {(0, 1), (1, 2), (0, 2)}, nodeIdx := 3, limit := 2 } := by
  rfl

/-- C6 as amended: for `nodeLimit < 3` the constructor does not fail and
performs no validation; the `while self.node_idx < node_limit` loop is
skipped and the initial triangle on vertices `{0,1,2}` is returned,
regardless of the random draws. -/
theorem generate_small_no_validation (limit fuel : Nat) (draws : List Draw)
    (h : limit < 3) :
    generate limit (fuel + 1) draws =
      some { outside := {(0, 1), (1, 2), (0, 2)},
             edges := {(0, 1), (1, 2), (0, 2)}, nodeIdx := 3,
             limit := limit } := by
  unfold generate
  rw [outerLoop]
  rw [if_neg (show ¬((genInit limit).nodeIdx < (genInit limit).limit) from by
    show ¬(3 < limit)
    omega)]
  rw [Option.map_some', Option.some.injEq]
  show ({ genInit limit with
    edges := (genInit limit).edges ∪ (genInit limit).outside } : GenState) = _
  rw [show (genInit limit).edges ∪ (genInit limit).outside =
      ({(0, 1), (1, 2), (0, 2)} : Finset Edge) from Finset.empty_union _]
  rfl

/-- C6 witness for the amended claim. -/
theorem generate_small_no_validation_witness :
    generate 1 1 [Draw.coin true] =
      some { outside := {(0, 1), (1, 2), (0, 2)},
             edges := {(0, 1), (1, 2), (0, 2)}, nodeIdx := 3, limit := 1 } :=
  generate_small_no_validation 1 0 [Draw.coin true] (by decide)

/-- Boundary bookkeeping of a whole contract step, for C8: on success, the
final merged endpoints pair is the only possibly-new boundary edge, removed
boundary edges became permanent, and the permanent set only grew. -/
lemma removeWalk_outside_shape : ∀ fuel : Nat,
    (∀ (st : GenState) (draws : List Draw) (st' : GenState) (d' : List Draw),
      removeLines fuel st draws = some (st', d') →
      ∃ ep : Edge, ep ∈ st'.outside ∧ st'.outside \ {ep} ⊆ st.outside ∧
        st.outside \ st'.outside ⊆ st'.edges ∧ st.edges ⊆ st'.edges) ∧
    (∀ (st : GenState) (ep0 : Edge) (draws : List Draw) (st' : GenState)
        (d' : List Draw),
      walkLoop fuel st ep0 draws = some (st', d') →
      ∃ ep : Edge, ep ∈ st'.outside ∧ st'.outside \ {ep} ⊆ st.outside ∧
        st.outside \ st'.outside ⊆ st'.edges ∧ st.edges ⊆ st'.edges) := by
  intro fuel
  induction fuel with
  | zero =>
    constructor
    · intro st draws st' d' h
      simp [removeLines] at h
    · intro st ep0 draws st' d' h
      simp [walkLoop] at h
  | succ fuel ih =>
    obtain ⟨ihr, ihw⟩ := ih
    constructor
    · intro st draws st' d' h
      cases draws with
      | nil => simp [removeLines] at h
      | cons d1 rest =>
        cases d1 with
        | side s => simp [removeLines] at h
        | coin c => simp [removeLines] at h
        | scanPick r => simp [removeLines] at h
        | edge ab =>
          rw [removeLines] at h
          by_cases hout : ab ∈ st.outside
          · rw [if_pos hout] at h
            obtain ⟨ep, hep, hsub, hmoved, hedge⟩ := ihw _ ab rest st' d' h
            refine ⟨ep, hep, ?_, ?_, ?_⟩
            · intro x hx
              exact Finset.erase_subset ab st.outside (hsub hx)
            · intro x hx
              obtain ⟨hxo, hxn⟩ := Finset.mem_sdiff.mp hx
              by_cases hxab : x = ab
              · apply hedge
                show x ∈ insert ab st.edges
                rw [hxab]
                exact Finset.mem_insert_self _ _
              · apply hmoved
                refine Finset.mem_sdiff.mpr ⟨?_, hxn⟩
                exact Finset.mem_erase.mpr ⟨hxab, hxo⟩
            · intro x hx
              apply hedge
              exact Finset.mem_insert_of_mem hx
          · rw [if_neg hout] at h
            cases h
    · intro st ep0 draws st' d' h
      cases draws with
      | nil => simp [walkLoop] at h
      | cons d1 rest =>
        cases d1 with
        | side s => simp [walkLoop] at h
        | coin c => simp [walkLoop] at h
        | edge e => simp [walkLoop] at h
        | scanPick r =>
          cases r with
          | none =>
            rw [walkLoop] at h
            by_cases hmem : ep0 ∈ st.outside
            · rw [if_pos hmem] at h
              exact ihr st rest st' d' h
            · rw [if_neg hmem] at h
              cases h
          | some xy =>
            rw [walkLoop] at h
            by_cases hvalid : xy ∈ st.outside ∧ xy ≠ ep0 ∧
                (xy.1 = ep0.1 ∨ xy.1 = ep0.2 ∨ xy.2 = ep0.1 ∨ xy.2 = ep0.2)
            · rw [if_pos hvalid] at h
              dsimp only at h
              set xymod : Edge := (if xy.1 = ep0.1 ∨ xy.1 = ep0.2 then
                  (ep0.1 + ep0.2 - xy.1, xy.2)
                else (ep0.1 + ep0.2 - xy.2, xy.1)) with hxymod
              set epm : Edge := (min xymod.1 xymod.2, max xymod.1 xymod.2)
                with hepm
              cases rest with
              | nil => simp at h
              | cons d2 rest2 =>
                cases d2 with
                | side s2 => simp at h
                | edge e2 => simp at h
                | scanPick r2 => simp at h
                | coin b =>
                  cases b with
                  | true =>
                    simp only [eq_self_iff_true, if_true] at h
                    rw [Option.some.injEq, Prod.mk.injEq] at h
                    obtain ⟨hst, -⟩ := h
                    rw [← hst]
                    refine ⟨epm, Finset.mem_insert_self _ _, ?_, ?_, ?_⟩
                    · intro x hx
                      obtain ⟨hxm, hxn⟩ := Finset.mem_sdiff.mp hx
                      rcases Finset.mem_insert.mp hxm with rfl | hxe
                      · exact absurd (Finset.mem_singleton_self _) hxn
                      · exact Finset.erase_subset xy st.outside hxe
                    · intro x hx
                      obtain ⟨hxo, hxn⟩ := Finset.mem_sdiff.mp hx
                      have hxxy : x = xy := by
                        by_contra hne
                        exact hxn (Finset.mem_insert_of_mem
                          (Finset.mem_erase.mpr ⟨hne, hxo⟩))
                      rw [hxxy]
                      exact Finset.mem_insert_self _ _
                    · exact Finset.subset_insert _ _
                  | false =>
                    simp only [Bool.false_eq_true, if_false] at h
                    obtain ⟨ep, hep, hsub, hmoved, hedge⟩ :=
                      ihw _ epm rest2 st' d' h
                    refine ⟨ep, hep, ?_, ?_, ?_⟩
                    · intro x hx
                      exact Finset.erase_subset xy st.outside (hsub hx)
                    · intro x hx
                      obtain ⟨hxo, hxn⟩ := Finset.mem_sdiff.mp hx
                      by_cases hxxy : x = xy
                      · apply hedge
                        show x ∈ insert xy st.edges
                        rw [hxxy]
                        exact Finset.mem_insert_self _ _
                      · apply hmoved
                        refine Finset.mem_sdiff.mpr ⟨?_, hxn⟩
                        exact Finset.mem_erase.mpr ⟨hxxy, hxo⟩
                    · intro x hx
                      apply hedge
                      exact Finset.mem_insert_of_mem hx
            · rw [if_neg hvalid] at h
              cases h

/-- C8: encountering a boundary edge equal to the current `endpoints` pair
aborts the walk and retries the whole contract step (`removeLines` is simply
re-entered on the current state with fresh draws — a recoverable condition,
not an error), and every completed contract step re-adds the final merged
endpoints pair as the single possibly-new boundary edge while all removed
boundary edges become permanent. -/
theorem contract_wrap_retries_and_readds :
    (∀ (fuel : Nat) (st : GenState) (ep : Edge) (rest : List Draw),
      ep ∈ st.outside →
      walkLoop (fuel + 1) st ep (Draw.scanPick none :: rest) =
        removeLines fuel st rest) ∧
    (∀ (fuel : Nat) (st : GenState) (draws : List Draw) (st' : GenState)
        (d' : List Draw),
      removeLines fuel st draws = some (st', d') →
      ∃ ep : Edge, ep ∈ st'.outside ∧ st'.outside \ {ep} ⊆ st.outside ∧
        st.outside \ st'.outside ⊆ st'.edges ∧ st.edges ⊆ st'.edges) := by
  constructor
  · intro fuel st ep rest h
    rw [walkLoop]
    rw [if_pos h]
  · intro fuel
    exact (removeWalk_outside_shape fuel).1

/-- A 3-cycle boundary state and the state after one concrete completed
contract step, for the C8 witness. -/
def contractSt : GenState :=
  { outside := {(0, 1), (1, 2), (0, 2)}, edges := ∅, nodeIdx := 3, limit := 3 }

def contractStDone : GenState :=
  { outside := {(0, 2)}, edges := {(1, 2), (0, 1)}, nodeIdx := 3, limit := 3 }

/-- C8 witness: the wrap-retry equation at a concrete state, and the
boundary bookkeeping of a concrete completed contract step. -/
theorem contract_wrap_retries_and_readds_witness :
    (walkLoop 1 contractSt (0, 1) (Draw.scanPick none :: []) =
      removeLines 0 contractSt []) ∧
    (∃ ep : Edge, ep ∈ contractStDone.outside ∧
      contractStDone.outside \ {ep} ⊆ contractSt.outside ∧
      contractSt.outside \ contractStDone.outside ⊆ contractStDone.edges ∧
      contractSt.edges ⊆ contractStDone.edges) :=
  ⟨contract_wrap_retries_and_readds.1 0 contractSt (0, 1) [] (by decide),
   contract_wrap_retries_and_readds.2 2 contractSt
     [Draw.edge (0, 1), Draw.scanPick (some (1, 2)), Draw.coin true]
     contractStDone [] (by rfl)⟩

/-- C9: every edge tuple ever stored in the boundary set or the permanent
edge set is in canonical order `a < b`: this holds of the initial triangle,
is preserved by every phase of generation (each loop of `addLines` and
`removeLines`, the shrink loop and the outer loop), and holds of the
returned edge sets. -/
theorem edges_canonical_throughout :
    (∀ limit : Nat, ∀ e ∈ (genInit limit).outside ∪ (genInit limit).edges,
      e.1 < e.2) ∧
    (∀ (fuel : Nat) (st : GenState) (base pivot : Nat) (ab : Edge)
        (draws : List Draw) (st' : GenState) (d' : List Draw),
      fanLoop fuel st base pivot ab draws = some (st', d') → GInv st →
      ab ∈ st.outside → base < st.nodeIdx → pivot < st.nodeIdx →
      base ≠ pivot → st.nodeIdx < st.limit →
      ∀ e ∈ st'.outside ∪ st'.edges, e.1 < e.2) ∧
    (∀ (fuel : Nat) (st : GenState) (draws : List Draw) (st' : GenState)
        (d' : List Draw),
      addLines fuel st draws = some (st', d') → GInv st →
      st.nodeIdx < st.limit → ∀ e ∈ st'.outside ∪ st'.edges, e.1 < e.2) ∧
    (∀ (fuel : Nat) (st : GenState) (draws : List Draw) (st' : GenState)
        (d' : List Draw),
      removeLines fuel st draws = some (st', d') → GInv st →
      ∀ e ∈ st'.outside ∪ st'.edges, e.1 < e.2) ∧
    (∀ (fuel : Nat) (st : GenState) (ep : Edge) (draws : List Draw)
        (st' : GenState) (d' : List Draw),
      walkLoop fuel st ep draws = some (st', d') → GInv st →
      ep.1 < ep.2 → ep.2 < st.nodeIdx →
      ∀ e ∈ st'.outside ∪ st'.edges, e.1 < e.2) ∧
    (∀ (fuel olimit : Nat) (st : GenState) (draws : List Draw)
        (st' : GenState) (d' : List Draw),
      shrinkLoop fuel olimit st draws = some (st', d') → GInv st →
      ∀ e ∈ st'.outside ∪ st'.edges, e.1 < e.2) ∧
    (∀ (fuel olimit : Nat) (st : GenState) (draws : List Draw)
        (st' : GenState) (d' : List Draw),
      outerLoop fuel olimit st draws = some (st', d') → GInv st →
      ∀ e ∈ st'.outside ∪ st'.edges, e.1 < e.2) ∧
    (∀ (limit fuel : Nat) (draws : List Draw) (st : GenState),
      generate limit fuel draws = some st →
      ∀ e ∈ st.edges ∪ st.outside, e.1 < e.2) := by
  refine ⟨?_, ?_, ?_, ?_, ?_, ?_, ?_, ?_⟩
  · intro limit e he
    exact ((genInit_inv limit).1 e he).1
  · intro fuel st base pivot ab draws st' d' h hI hab hb hp hbp hlim e he
    exact ((fanLoop_inv fuel st base pivot ab draws st' d' h hI hab hb hp hbp
      hlim).1.1 e he).1
  · intro fuel st draws st' d' h hI hlim e he
    exact ((addLines_inv fuel st draws st' d' h hI hlim).1.1 e he).1
  · intro fuel st draws st' d' h hI e he
    exact (((removeWalk_inv fuel).1 st draws st' d' h hI).1.1 e he).1
  · intro fuel st ep draws st' d' h hI h1 h2 e he
    exact (((removeWalk_inv fuel).2 st ep draws st' d' h hI h1 h2).1.1 e he).1
  · intro fuel olimit st draws st' d' h hI e he
    exact ((shrinkLoop_inv fuel olimit st draws st' d' h hI).1.1 e he).1
  · intro fuel olimit st draws st' d' h hI e he
    exact ((outerLoop_inv fuel olimit st draws st' d' h hI).1.1 e he).1
  · intro limit fuel draws st h e he
    unfold generate at h
    cases hout : outerLoop fuel (outsideLimitDefault limit) (genInit limit)
        draws with
    | none =>
      rw [hout] at h
      cases h
    | some p =>
      obtain ⟨st0, d0⟩ := p
      rw [hout] at h
      rw [Option.map_some', Option.some.injEq] at h
      obtain ⟨hI, -, -, -⟩ := outerLoop_inv fuel (outsideLimitDefault limit)
        (genInit limit) draws st0 d0 hout (genInit_inv limit)
      have hE : st.edges = st0.edges ∪ st0.outside := by
        rw [← h]
      have hO : st.outside = st0.outside := by
        rw [← h]
      rw [hE, hO] at he
      have hmem : e ∈ st0.outside ∪ st0.edges := by
        rcases Finset.mem_union.mp he with h1 | h1
        · rcases Finset.mem_union.mp h1 with h2 | h2
          · exact Finset.mem_union_right _ h2
          · exact Finset.mem_union_left _ h2
        · exact Finset.mem_union_left _ h1
      exact (hI.1 e hmem).1

/-- C9 witness: canonical order of one returned edge of the concrete
`nodeLimit = 3` run. -/
theorem edges_canonical_throughout_witness :
    ((0 : Nat), (1 : Nat)).1 < ((0 : Nat), (1 : Nat)).2 :=
  edges_canonical_throughout.2.2.2.2.2.2.2 3 1 [] triGen rfl
    (0, 1) (by decide)

end QPlanarity
